import Mathlib

/-!
Shallow embedding of the core of bom_digikey_plugin (digikey.py): the match
extractor (Digikey.soup_extract), the catalog builder (Digikey.collection_extract),
the consistency verifier (Digikey.collection_verify) and the reorganizer
(DigikeyDirectory.reorganize).  Python strings are modelled as lists of
characters, Python dicts as insertion-ordered association lists, and fallible
code returns Except.
-/

/-- Python strings, modelled as lists of characters. -/
abbrev PyStr := List Char

/-- Conversion from Lean string literals. -/
def pstr (s : String) : PyStr := s.data

/-- The whitespace characters stripped by the Python str.strip() default. -/
def pyWsChars : PyStr := [' ', '\t', '\n', '\r', '\x0b', '\x0c']

/-- Python s.strip(cs): remove leading and trailing characters drawn from cs. -/
def pyStripChars (cs : PyStr) (s : PyStr) : PyStr :=
  ((s.dropWhile (fun c => cs.contains c)).reverse.dropWhile (fun c => cs.contains c)).reverse

/-- Python s.strip() with no argument. -/
def pyStrip (s : PyStr) : PyStr := pyStripChars pyWsChars s

/-- Python s.startswith(p). -/
def pyStartsWith (p s : PyStr) : Bool := p.isPrefixOf s

/-- Python s.endswith(p). -/
def pyEndsWith (p s : PyStr) : Bool := p.isSuffixOf s

/-- Python s.find(c) for a single character, as an Option (None encodes -1). -/
def pyFind (c : Char) : PyStr → Option Nat
  | [] => none
  | d :: rest => if d = c then some 0 else (pyFind c rest).map (fun i => i + 1)

/-- Python s.rfind(c) for a single character, as an Option (None encodes -1). -/
def pyRfind (c : Char) (s : PyStr) : Option Nat :=
  (pyFind c s.reverse).map (fun i => s.length - 1 - i)

/-- Value of a nonempty all-digit string. -/
def pyDigits? (ds : PyStr) : Option Int :=
  if ds ≠ [] ∧ ds.all (fun c => c.isDigit) then
    some (Int.ofNat (ds.foldl (fun n c => 10 * n + (c.toNat - 48)) 0))
  else none

/-- Python int(s): strips whitespace, accepts an optional sign followed by a
nonempty run of decimal digits, raises ValueError (None here) otherwise.
The underscore digit separators accepted by Python are not modelled; the
inputs in this program are URL path segments and item counts. -/
def pyInt (s : PyStr) : Option Int :=
  match pyStrip s with
  | '+' :: ds => pyDigits? ds
  | '-' :: ds => (pyDigits? ds).map (fun n => -n)
  | ds => pyDigits? ds

/-- Lexicographic strict order on Python strings (code point order). -/
def pyStrLt : PyStr → PyStr → Bool
  | [], [] => false
  | [], _ :: _ => true
  | _ :: _, [] => false
  | a :: as, b :: bs => if a < b then true else if b < a then false else pyStrLt as bs

/-- Lexicographic weak order on Python strings. -/
def pyStrLe (a b : PyStr) : Bool := !(pyStrLt b a)

/-- Stable insertion into a sorted list: the new element goes after the
elements already present that are le it, which matches the stability of the
Python sort. -/
def insertStable {α : Type} (le : α → α → Bool) (x : α) : List α → List α
  | [] => [x]
  | y :: ys => if le y x then y :: insertStable le x ys else x :: y :: ys

/-- Python sorted(l): a stable sort, modelled as left-to-right stable insertion. -/
def pySorted {α : Type} (le : α → α → Bool) (l : List α) : List α :=
  l.foldl (fun acc x => insertStable le x acc) []

/-- Split a string at the first occurrence of the separator sep, returning the
parts before and after it, or none when sep does not occur.  Mirrors the
Python pattern of str.find plus slicing used in DigikeyDirectory.reorganize. -/
def splitFirstSep (sep : PyStr) : PyStr → Option (PyStr × PyStr)
  | [] => if sep = [] then some ([], []) else none
  | c :: rest =>
    if sep.isPrefixOf (c :: rest) then some ([], (c :: rest).drop sep.length)
    else (splitFirstSep sep rest).map (fun p => (c :: p.1, p.2))

/-- Errors raised by the Python code: assert failures, int() failures, and
reads of a never-assigned local variable. -/
inductive PyErr where
  | assertionError
  | valueError
  | nameError
deriving DecidableEq

/-- One Match tuple (href, base, id, a_content, li_content, url), in the field
order of the source type alias Match = Tuple[str, str, int, str, str, str]. -/
structure PMatch where
  href : PyStr
  base : PyStr
  id : Int
  a_content : PyStr
  li_content : PyStr
  url : PyStr
deriving DecidableEq

/-- Python tuple comparison on Match values: lexicographic over the six fields
in declaration order, as used by sorted(matches) in collection_extract. -/
def matchLe (m n : PMatch) : Bool :=
  if pyStrLt m.href n.href then true else if pyStrLt n.href m.href then false
  else if pyStrLt m.base n.base then true else if pyStrLt n.base m.base then false
  else if m.id < n.id then true else if n.id < m.id then false
  else if pyStrLt m.a_content n.a_content then true
  else if pyStrLt n.a_content m.a_content then false
  else if pyStrLt m.li_content n.li_content then true
  else if pyStrLt n.li_content m.li_content then false
  else if pyStrLt m.url n.url then true else if pyStrLt n.url m.url then false
  else true

/-- The hrefs table: a Python dict from key to list of matches, modelled as an
insertion-ordered association list with distinct keys. -/
abbrev HrefsTable := List (PyStr × List PMatch)

/-- Keys of a Python dict, in insertion order. -/
def dictKeys {β : Type} (t : List (PyStr × β)) : List PyStr := t.map (fun p => p.1)

/-- Python key-membership test on a dict. -/
def dictMem {β : Type} (k : PyStr) (t : List (PyStr × β)) : Bool :=
  t.any (fun p => decide (p.1 = k))

/-- Python dict lookup for dicts of lists, defaulting to the empty list; in the
source every lookup is preceded by a membership check or insertion. -/
def dictFind {β : Type} (t : List (PyStr × List β)) (k : PyStr) : List β :=
  ((t.find? (fun p => decide (p.1 = k))).map (fun p => p.2)).getD []

/-- The pattern matches[key].append(v) preceded by creation of an empty list
when the key is absent: appends v to the list at key k, inserting a new final
entry when k is new. -/
def alistAppend {β : Type} (t : List (PyStr × List β)) (k : PyStr) (v : β) :
    List (PyStr × List β) :=
  if dictMem k t then t.map (fun p => if p.1 = k then (p.1, p.2 ++ [v]) else p)
  else t ++ [(k, [v])]

/-- Python del t[k]: removes the entry with key k. -/
def dictRemove {β : Type} (k : PyStr) (t : List (PyStr × β)) : List (PyStr × β) :=
  t.eraseP (fun p => decide (p.1 = k))

/-- A DigikeyTable node: name, base, id (nonce), href and url, as stuffed into
the object by DigikeyTable.__init__. -/
structure DigikeyTable where
  name : PyStr
  base : PyStr
  id : Int
  href : PyStr
  url : PyStr
deriving DecidableEq

/-- A sub-directory created by DigikeyDirectory.reorganize: name, id, url and
its child tables.  Reorganization is one level deep, so sub-directories hold
only tables. -/
structure DigikeySubDirectory where
  name : PyStr
  id : Int
  url : PyStr
  tables : List DigikeyTable
deriving DecidableEq

/-- A DigikeyDirectory node.  Its children are the tables appended by
DigikeyTable.__init__ plus the sub-directories appended by reorganize; the
source asserts that every child present when reorganize runs is a table. -/
structure DigikeyDirectory where
  name : PyStr
  id : Int
  url : PyStr
  tables : List DigikeyTable
  subdirs : List DigikeySubDirectory
deriving DecidableEq

/-- The collection built by collection_extract: its top-level directories in
creation order. -/
abbrev Collection := List DigikeyDirectory

/-- The fixed relative href lead-in "/products/en/" of Digikey.soup_extract. -/
def urlPfx : PyStr := pstr "/products/en/"

/-- The fixed absolute URL lead-in used for Match.url and by the verifier. -/
def absPfx : PyStr := pstr "https://www.digikey.com/products/en/"

/-- One anchor element of the parsed HTML document, as seen by soup_extract:
its href attribute, whether it carries a class attribute, whether its
structural parent is an li element, the NavigableString pieces directly under
the anchor, and those directly under the parent li (the anchor subtree is a
Tag, so it is excluded from the latter by the isinstance test in the source). -/
structure Anchor where
  href : Option PyStr
  hasClass : Bool
  parentIsLi : Bool
  aStrings : List PyStr
  liStrings : List PyStr
deriving DecidableEq

/-- The concatenated and stripped direct text content of the anchor. -/
def a_contents_text (a : Anchor) : PyStr := pyStrip a.aStrings.flatten

/-- The li text: nonempty only when the anchor has a class attribute and its
parent is an li element. -/
def li_contents_text (a : Anchor) : PyStr :=
  if a.hasClass && a.parentIsLi then pyStrip a.liStrings.flatten else []

/-- Replace slashes by hyphens, as applied to the base part of a key. -/
def slashToHyphen (s : PyStr) : PyStr := s.map (fun c => if c = '/' then '-' else c)

/-- Strip an optional query suffix: href.find of the question mark followed by
slicing when present. -/
def stripQuery (h : PyStr) : PyStr :=
  match pyFind '?' h with
  | some i => h.take i
  | none => h

/-- Processing of one anchor by Digikey.soup_extract: anchors without an href
starting with urlPfx (or equal to it) are skipped; otherwise the query suffix
and the fixed lead-in are stripped, the remainder is split at the last slash
into base and id (id = -1 with base the whole remainder when no slash is
present), and a Match is produced under the derived key.  int() on a bad
trailing segment raises ValueError. -/
def anchor_process (a : Anchor) : Except PyErr (Option (PyStr × PMatch)) :=
  match a.href with
  | none => .ok none
  | some h0 =>
    if pyStartsWith urlPfx h0 = true ∧ h0 ≠ urlPfx then
      match pyRfind '/' ((stripQuery h0).drop urlPfx.length) with
      | some i =>
        match pyInt (((stripQuery h0).drop urlPfx.length).drop (i + 1)) with
        | none => .error .valueError
        | some n =>
          .ok (some ((stripQuery h0).drop urlPfx.length,
                ⟨(stripQuery h0).drop urlPfx.length,
                 slashToHyphen (((stripQuery h0).drop urlPfx.length).take i), n,
                 a_contents_text a, li_contents_text a,
                 absPfx ++ (stripQuery h0).drop urlPfx.length⟩))
      | none =>
        .ok (some ((stripQuery h0).drop urlPfx.length,
              ⟨(stripQuery h0).drop urlPfx.length, (stripQuery h0).drop urlPfx.length, -1,
               a_contents_text a, li_contents_text a,
               absPfx ++ (stripQuery h0).drop urlPfx.length⟩))
    else .ok none

/-- The anchor sweep of Digikey.soup_extract, threading the hrefs table. -/
def soup_go (acc : HrefsTable) : List Anchor → Except PyErr HrefsTable
  | [] => .ok acc
  | a :: rest =>
    match anchor_process a with
    | .error e => .error e
    | .ok none => soup_go acc rest
    | .ok (some km) => soup_go (alistAppend acc km.1 km.2) rest

/-- Digikey.soup_extract: scan the anchors of the document in order and build
the mapping from derived key to the list of matches observed for it. -/
def soup_extract (anchors : List Anchor) : Except PyErr HrefsTable :=
  soup_go [] anchors

/-- The local variables of the winner-selection loop in collection_extract:
name, items and url are initialized before the loop; base, id and href exist
only once an iteration has unpacked a match (None models unbound). -/
structure WinState where
  name : Option PyStr
  items : Int
  url : Option PyStr
  base : Option PyStr
  id : Option Int
  href : Option PyStr
deriving DecidableEq

/-- The caption suffix " items)" tested for by collection_extract. -/
def itemsPattern : PyStr := pstr " items)"

/-- The item count parse in collection_extract: li_content.find of the open
parenthesis (plus one, with the find result -1 giving slice start 0) up to the
pattern length from the end, fed to int(). -/
def parseItems (li_content : PyStr) : Option Int :=
  let start : Nat :=
    match pyFind '(' li_content with
    | some i => i + 1
    | none => 0
  pyInt ((li_content.take (li_content.length - itemsPattern.length)).drop start)

/-- The initial state of the winner-selection loop. -/
def winInit : WinState := ⟨none, -1, none, none, none, none⟩

/-- The body of the winner-selection loop of collection_extract, iterating the
reverse-sorted matches.  Each iteration first unpacks the match (reassigning
url, base, id and href), asserts that its href is empty or equal to the key,
and then runs the guarded block.  The guard in the source is
name is not None, which is False on every iteration because name starts as
None and is assigned only inside this block. -/
def winner_loop (key : PyStr) : List PMatch → WinState → Except PyErr WinState
  | [], st => .ok st
  | m :: rest, st =>
    if m.href = [] ∨ m.href = key then
      if st.name ≠ none ∧ pyStartsWith (pstr "See") m.a_content = false then
        if st.items < 0 ∧ pyEndsWith itemsPattern m.li_content = true then
          match parseItems m.li_content with
          | some n =>
            .ok ⟨some (pyStripChars (pstr " \t\n") m.a_content), n,
                 some m.url, some m.base, some m.id, some m.href⟩
          | none => .error .valueError
        else
          .ok ⟨some (pyStripChars (pstr " \t\n") m.a_content), st.items,
               some m.url, some m.base, some m.id, some m.href⟩
      else winner_loop key rest ⟨st.name, st.items, some m.url, some m.base, some m.id, some m.href⟩
    else .error .assertionError

/-- Winner selection for one key: visit the matches sorted by the Match tuple
order and traversed in reverse. -/
def winner_select (key : PyStr) (ms : List PMatch) : Except PyErr WinState :=
  winner_loop key (pySorted matchLe ms).reverse winInit

/-- The dispatch of collection_extract for one key: no name means skip; a name
with a negative item count creates a new directory which becomes the current
directory; otherwise a table is appended to the current directory, which must
exist.  The id, url, base and href used come from the loop variables of the
winner scan. -/
def extract_step (col : Collection) (key : PyStr) (ms : List PMatch) :
    Except PyErr Collection :=
  match winner_select key ms with
  | .error e => .error e
  | .ok st =>
    match st.name with
    | none => .ok col
    | some nm =>
      if st.items < 0 then
        match st.url with
        | none => .error .assertionError
        | some u =>
          match st.id with
          | none => .error .nameError
          | some i => .ok (col ++ [⟨nm, i, u, [], []⟩])
      else
        match col.getLast? with
        | none => .error .assertionError
        | some last =>
          match st.url with
          | none => .error .assertionError
          | some u =>
            match st.id, st.base, st.href with
            | some i, some b, some hr =>
              .ok (col.dropLast ++
                   [⟨last.name, last.id, last.url,
                     last.tables ++ [⟨nm, b, i, hr, u⟩], last.subdirs⟩])
            | _, _, _ => .error .nameError

/-- The key sweep of collection_extract over the sorted keys. -/
def extract_go (ht : HrefsTable) (col : Collection) : List PyStr → Except PyErr Collection
  | [] => .ok col
  | k :: ks =>
    match extract_step col k (dictFind ht k) with
    | .error e => .error e
    | .ok col2 => extract_go ht col2 ks

/-- Digikey.collection_extract: process the keys of the hrefs table in sorted
order, building the initial collection. -/
def collection_extract (ht : HrefsTable) : Except PyErr Collection :=
  extract_go ht [] (pySorted pyStrLe (dictKeys ht))

/-- The name and url of a directory node, as read by the verifier.  The
directory lists of the external bom framework are modelled as collecting every
directory node of the tree; when the verifier runs the tree is flat, so these
are exactly the top-level directories. -/
structure DirView where
  name : PyStr
  url : PyStr
deriving DecidableEq

/-- All directory nodes of the collection. -/
def directories_get (col : Collection) : List DirView :=
  col.flatMap (fun d =>
    (⟨d.name, d.url⟩ : DirView) :: d.subdirs.map (fun s => (⟨s.name, s.url⟩ : DirView)))

/-- All table nodes of the collection. -/
def tables_get (col : Collection) : List DigikeyTable :=
  col.flatMap (fun d => d.tables ++ d.subdirs.flatMap (fun s => s.tables))

/-- The reconciliation key of a table: its url with the absolute lead-in cut. -/
def tableKeyOf (t : DigikeyTable) : PyStr := t.url.drop absPfx.length

/-- The reconciliation key of a directory. -/
def dirKeyOf (d : DirView) : PyStr := d.url.drop absPfx.length

/-- One removal pass of the verifier: for each key in turn, delete it from the
working copy when present, otherwise count an error. -/
def removePass (copy : HrefsTable) (errors : Nat) (ks : List PyStr) : HrefsTable × Nat :=
  ks.foldl (fun acc k =>
    if dictMem k acc.1 then (dictRemove k acc.1, acc.2) else (acc.1, acc.2 + 1))
    (copy, errors)

/-- The reconciliation keys processed by the verifier: tables first, then
directories. -/
def verifyKeys (col : Collection) : List PyStr :=
  (tables_get col).map tableKeyOf ++ (directories_get col).map dirKeyOf

/-- Digikey.collection_verify: when the key count differs from the directory
plus table count, reconcile against a copy of the hrefs table; removals that
find no entry are counted as errors and a nonzero count is a fatal assert.
Entries left over in the copy are printed but not counted.  The collection and
the hrefs table are threaded through unchanged. -/
def collection_verify (col : Collection) (ht : HrefsTable) :
    Collection × HrefsTable × Except PyErr Unit :=
  let directories := directories_get col
  let tables := tables_get col
  if ht.length = directories.length + tables.length then (col, ht, .ok ())
  else
    let copy := ht
    let p1 := removePass copy 0 (tables.map tableKeyOf)
    let p2 := removePass p1.1 p1.2 (directories.map dirKeyOf)
    if p2.2 = 0 then (col, ht, .ok ()) else (col, ht, .error .assertionError)

/-- The table-of-group lists built by DigikeyDirectory.reorganize. -/
abbrev GroupsTable := List (PyStr × List DigikeyTable)

/-- The separator " - " used by the reorganizer. -/
def sepStr : PyStr := pstr " - "

/-- The group key of a table: the stripped part of its name before the first
" - ", or none when the separator does not occur. -/
def groupKeyOf (t : DigikeyTable) : Option PyStr :=
  match splitFirstSep sepStr t.name with
  | some lr => some (pyStrip lr.1)
  | none => none

/-- Table-name order used by the sorts in reorganize. -/
def tableNameLe (a b : DigikeyTable) : Bool := pyStrLe a.name b.name

/-- Step 1 of reorganize: sweep the tables, accumulating each divided table
into the group of its key. -/
def step1Groups (gt : GroupsTable) (ts : List DigikeyTable) : GroupsTable :=
  ts.foldl (fun gt t =>
    match groupKeyOf t with
    | some k => alistAppend gt k t
    | none => gt) gt

/-- The collision pass of reorganize: a table whose full name equals an
existing group key is appended to that group. -/
def collisionGroups (gt : GroupsTable) (ts : List DigikeyTable) : GroupsTable :=
  ts.foldl (fun gt t => if dictMem t.name gt then alistAppend gt t.name t else gt) gt

/-- The children of the directory sorted by table name, as built at the start
of reorganize. -/
def childrenSorted (d : DigikeyDirectory) : List DigikeyTable :=
  pySorted tableNameLe d.tables

/-- The groups table of reorganize after step 1 (over the sorted children) and
the collision pass (over the children in original order). -/
def groupsOf (d : DigikeyDirectory) : GroupsTable :=
  collisionGroups (step1Groups [] (childrenSorted d)) d.tables

/-- The groups that survive the size filter: fewer than 2 members is dropped. -/
def survivors (d : DigikeyDirectory) : GroupsTable :=
  (groupsOf d).filter (fun p => 2 ≤ p.2.length)

/-- The values left in the loop variables of the step 1 sweep when the
creation loop runs: the fields of the last table in the name-sorted children.
The default is never read, because a surviving group implies a nonempty child
list. -/
def lastScanned (d : DigikeyDirectory) : DigikeyTable :=
  (childrenSorted d).getLast?.getD ⟨[], [], -1, [], []⟩

/-- The fresh table created in the sub-directory for an original table: the
name is re-read from the table, href is cleared, and base, id and url are the
stale loop variables of the step 1 sweep. -/
def recreateTable (d : DigikeyDirectory) (t : DigikeyTable) : DigikeyTable :=
  ⟨t.name, (lastScanned d).base, (lastScanned d).id, [], (lastScanned d).url⟩

/-- The sub-directory created for one surviving group key: its id and url are
the stale loop variables, and its tables are the re-created group members in
name order. -/
def mkSubDirectory (d : DigikeyDirectory) (k : PyStr) : DigikeySubDirectory :=
  ⟨k, (lastScanned d).id, (lastScanned d).url,
   (pySorted tableNameLe (dictFind (survivors d) k)).map (recreateTable d)⟩

/-- The table children remaining after every member of a surviving group is
removed from the directory. -/
def remainingTables (d : DigikeyDirectory) : List DigikeyTable :=
  (survivors d).foldl (fun cs p => p.2.foldl (fun cs t => cs.erase t) cs) d.tables

/-- The sub-directories appended by reorganize, one per surviving group key in
sorted key order. -/
def newSubdirs (d : DigikeyDirectory) : List DigikeySubDirectory :=
  (pySorted pyStrLe (dictKeys (survivors d))).map (mkSubDirectory d)

/-- DigikeyDirectory.reorganize.  The source asserts that every child is a
table, so a directory that already has sub-directories faults; otherwise the
surviving groups are detached and re-created under fresh sub-directories. -/
def DigikeyDirectory.reorganize (d : DigikeyDirectory) : Except PyErr DigikeyDirectory :=
  if d.subdirs = [] then
    .ok ⟨d.name, d.id, d.url, remainingTables d, newSubdirs d⟩
  else .error .assertionError

deriving instance DecidableEq for Except

/-- Example input for the count invariant: one key with one match carrying a
qualifying label. -/
def exMatch1 : PMatch :=
  ⟨pstr "audio-products/10", pstr "audio-products", 10, pstr "Audio Products", [],
   pstr "https://www.digikey.com/products/en/audio-products/10"⟩

/-- Example one-key hrefs table. -/
def exInput1 : HrefsTable := [(pstr "audio-products/10", [exMatch1])]

/-- Example match for the winner-selection claim. -/
def exMatch2 : PMatch :=
  ⟨pstr "battery-products/6", pstr "battery-products", 6, pstr "Battery Products", [],
   pstr "https://www.digikey.com/products/en/battery-products/6"⟩

/-- Example one-key hrefs table for the winner-selection claim. -/
def exInput2 : HrefsTable := [(pstr "battery-products/6", [exMatch2])]

/-- A match whose label is a See link but whose caption carries an item count. -/
def exMatchSee : PMatch := ⟨pstr "k", pstr "b", 1, pstr "See All", pstr "(5 items)", pstr "u1"⟩

/-- A match with a qualifying label and an empty caption. -/
def exMatchAlpha : PMatch := ⟨pstr "k", pstr "b", 1, pstr "Alpha", [], pstr "u2"⟩

/-- The match list for the item-count claim: sorted order puts Alpha first, so
the reverse scan visits the See All match (with the caption) first. -/
def exMatches3 : List PMatch := [exMatchSee, exMatchAlpha]

/-- First table of the reorganize counterexample directory. -/
def c4t1 : DigikeyTable := ⟨pstr "A - B", pstr "b1", 1, pstr "h1", pstr "u1"⟩

/-- Second table of the reorganize counterexample directory; last in name
order, so its fields are the stale loop values. -/
def c4t2 : DigikeyTable := ⟨pstr "A - C", pstr "b2", 2, pstr "h2", pstr "u2"⟩

/-- The reorganize counterexample directory: parent id 99 and url pu differ
from every child field. -/
def c4dir : DigikeyDirectory := ⟨pstr "Parent", 99, pstr "pu", [c4t1, c4t2], []⟩

/-- The reorganized counterexample directory. -/
def c4res : DigikeyDirectory :=
  ⟨pstr "Parent", 99, pstr "pu", remainingTables c4dir, newSubdirs c4dir⟩

/-- The anchor whose href reduces to the bare lead-in after query stripping. -/
def c5anchor : Anchor := ⟨some (pstr "/products/en/?x"), false, false, [pstr "See All"], []⟩

/-- The hrefs table produced from that anchor: the empty key appears. -/
def c5out : HrefsTable := [([], [⟨[], [], -1, pstr "See All", [], absPfx⟩])]

/-- A one-key hrefs table with no matching tree node, for the verifier. -/
def c6ht : HrefsTable := [(pstr "k6", [exMatchAlpha])]

/-- A collection whose single directory has a url key that no mapping entry
matches, for the verifier witness. -/
def c6col : Collection :=
  [⟨pstr "D6", 1, pstr "https://www.digikey.com/products/en/zzz", [], []⟩]

/-- Tables of the C7 counterexample: the undivided name itself contains the
separator, so its group key is A, not A - B. -/
def c7g0 : DigikeyTable := ⟨pstr "A - B", pstr "g0", 1, pstr "gh0", pstr "gu0"⟩

/-- Divided table A - B - C of the C7 counterexample. -/
def c7g1 : DigikeyTable := ⟨pstr "A - B - C", pstr "g1", 2, pstr "gh1", pstr "gu1"⟩

/-- Divided table A - B - D of the C7 counterexample. -/
def c7g2 : DigikeyTable := ⟨pstr "A - B - D", pstr "g2", 3, pstr "gh2", pstr "gu2"⟩

/-- The C7 counterexample directory. -/
def c7dir : DigikeyDirectory := ⟨pstr "P", 1, pstr "pu", [c7g0, c7g1, c7g2], []⟩

/-- The collision-case tables for the C7 witness. -/
def fib0 : DigikeyTable := ⟨pstr "Fiber Optic Connectors", pstr "fb", 7, pstr "fh", pstr "fu"⟩

/-- Divided collision-case table. -/
def fib1 : DigikeyTable :=
  ⟨pstr "Fiber Optic Connectors - Accessories", pstr "fb1", 8, pstr "fh1", pstr "fu1"⟩

/-- Second divided collision-case table. -/
def fib2 : DigikeyTable :=
  ⟨pstr "Fiber Optic Connectors - Contacts", pstr "fb2", 9, pstr "fh2", pstr "fu2"⟩

/-- The collision-case directory. -/
def fibDir : DigikeyDirectory := ⟨pstr "PF", 4, pstr "pfu", [fib0, fib1, fib2], []⟩

/-- The reorganized collision-case directory. -/
def fibRes : DigikeyDirectory :=
  ⟨pstr "PF", 4, pstr "pfu", remainingTables fibDir, newSubdirs fibDir⟩

/-- The lone divided table of the single-member-group scenario. -/
def c8t : DigikeyTable := ⟨pstr "Connectors - Accessories", pstr "cb", 5, pstr "ch", pstr "cu"⟩

/-- The single-member-group scenario directory. -/
def c8dir : DigikeyDirectory := ⟨pstr "D8", 3, pstr "du", [c8t], []⟩

/-- An anchor whose href ends in a slash, so the trailing segment fed to
int() is empty. -/
def c10anchor : Anchor := ⟨some (pstr "/products/en/audio/"), false, false, [], []⟩

/-! ### Lemmas about the winner scan and the catalog builder -/

theorem winner_loop_keeps_none (key : PyStr) :
    ∀ (ms : List PMatch) (st st2 : WinState), st.name = none →
      winner_loop key ms st = .ok st2 → st2.name = none ∧ st2.items = st.items := by
  intro ms
  induction ms with
  | nil =>
    intro st st2 h h2
    simp only [winner_loop, Except.ok.injEq] at h2
    subst h2
    exact ⟨h, rfl⟩
  | cons m rest ih =>
    intro st st2 h h2
    simp only [winner_loop] at h2
    split at h2
    · rw [if_neg (by simp [h])] at h2
      exact ih ⟨st.name, st.items, some m.url, some m.base, some m.id, some m.href⟩ st2 h h2
    · simp at h2

theorem winner_select_none (key : PyStr) (ms : List PMatch) (st : WinState)
    (h : winner_select key ms = .ok st) : st.name = none ∧ st.items = -1 :=
  winner_loop_keeps_none key (pySorted matchLe ms).reverse winInit st rfl h

theorem extract_step_ok (col col2 : Collection) (key : PyStr) (ms : List PMatch)
    (h : extract_step col key ms = .ok col2) : col2 = col := by
  unfold extract_step at h
  cases hw : winner_select key ms with
  | error e => rw [hw] at h; simp at h
  | ok st =>
    rw [hw] at h
    have hn := winner_select_none key ms st hw
    simp only [hn.1] at h
    simp at h
    exact h.symm

theorem extract_go_ok (ht : HrefsTable) :
    ∀ (ks : List PyStr) (col col2 : Collection),
      extract_go ht col ks = .ok col2 → col2 = col := by
  intro ks
  induction ks with
  | nil =>
    intro col col2 h
    simp only [extract_go, Except.ok.injEq] at h
    exact h.symm
  | cons k ks ih =>
    intro col col2 h
    simp only [extract_go] at h
    cases hs : extract_step col k (dictFind ht k) with
    | error e => rw [hs] at h; simp at h
    | ok c2 =>
      rw [hs] at h
      rw [ih c2 col2 h, extract_step_ok col c2 k (dictFind ht k) hs]

theorem collection_extract_ok_nil (ht : HrefsTable) (m : Collection)
    (h : collection_extract ht = .ok m) : m = [] :=
  extract_go_ok ht (pySorted pyStrLe (dictKeys ht)) [] m h

/-! ### Claim theorems for the catalog builder -/

/-- Claim C1: the spec asserts that for every well-formed mapping the initial
tree has directories + tables = keys.  On the code this fails: the winner
guard in collection_extract reads name is not None with name still None, so
no node is ever created; on a one-key mapping with a qualifying match the
tree is empty and 0 + 0 is not 1. -/
theorem claim1_count_invariant_fails :
    collection_extract exInput1 = .ok [] ∧
    (directories_get []).length + (tables_get []).length = 0 ∧
    (dictKeys exInput1).length = 1 := by
  decide

/-- Claim C2: the spec asserts that a key whose reverse-sorted matches contain
a non-empty label not starting with See gets a Directory or Table node.  On
the code the winner scan never fires: for the one-key mapping exInput2, whose
single match has the qualifying label Battery Products, the selection returns
name None and the extracted collection is empty. -/
theorem claim2_no_node_created :
    exMatch2.a_content ≠ [] ∧
    pyStartsWith (pstr "See") exMatch2.a_content = false ∧
    winner_select (pstr "battery-products/6") [exMatch2] =
      .ok ⟨none, -1, some exMatch2.url, some exMatch2.base,
           some exMatch2.id, some exMatch2.href⟩ ∧
    collection_extract exInput2 = .ok [] := by
  decide

/-- Claim C3: the spec asserts that the item count is parsed from the first
caption ending in " items)" met in the reverse scan even when another match
supplies the label.  On the code nothing is parsed: for exMatches3 the
reverse-sorted scan meets the See All match with caption (5 items) first, that
caption parses to 5, and yet the final state still carries items -1 and no
name. -/
theorem claim3_items_not_parsed :
    pyEndsWith itemsPattern exMatchSee.li_content = true ∧
    parseItems exMatchSee.li_content = some 5 ∧
    (pySorted matchLe exMatches3).reverse = [exMatchSee, exMatchAlpha] ∧
    winner_select (pstr "k") exMatches3 =
      .ok ⟨none, -1, some exMatchAlpha.url, some exMatchAlpha.base,
           some exMatchAlpha.id, some exMatchAlpha.href⟩ := by
  decide

/-! ### Claim theorems for the verifier frame property -/

theorem collection_verify_shape (col : Collection) (ht : HrefsTable) :
    ∃ v, collection_verify col ht = (col, ht, v) := by
  simp only [collection_verify]
  split
  · exact ⟨_, rfl⟩
  · split
    · exact ⟨_, rfl⟩
    · exact ⟨_, rfl⟩

/-- Claim C9: in every run in which collection_verify returns, the collection
and the hrefs table are unchanged: the verifier only reads them, working on a
copy of the mapping for its reconciliation. -/
theorem claim9_verify_pure (col : Collection) (ht : HrefsTable)
    (h : (collection_verify col ht).2.2 = .ok ()) :
    (collection_verify col ht).1 = col ∧ (collection_verify col ht).2.1 = ht := by
  obtain ⟨v, hv⟩ := collection_verify_shape col ht
  rw [hv]
  exact ⟨rfl, rfl⟩

/-- Witness for claim C9 at the empty collection and empty mapping. -/
theorem claim9_verify_pure_witness :
    (collection_verify [] []).1 = [] ∧ (collection_verify [] []).2.1 = [] :=
  claim9_verify_pure [] [] (by decide)

/-- Claim C4 counterexample: reorganizing c4dir (parent id 99, url pu) yields
a sub-directory whose id 2 and url u2 are those of the last name-sorted child
c4t2, not of the parent, and the re-created table for c4t1 keeps its name but
takes base b2, id 2 and url u2 from c4t2 rather than its own b1, 1, u1. -/
theorem claim4_counterexample :
    c4dir.reorganize = .ok ⟨pstr "Parent", 99, pstr "pu", [],
      [⟨pstr "A", 2, pstr "u2",
        [⟨pstr "A - B", pstr "b2", 2, [], pstr "u2"⟩,
         ⟨pstr "A - C", pstr "b2", 2, [], pstr "u2"⟩]⟩]⟩ ∧
    c4dir.id = 99 ∧ c4dir.url = pstr "pu" ∧ (2 : Int) ≠ 99 ∧
    pstr "u2" ≠ pstr "pu" ∧
    c4t1.name = pstr "A - B" ∧ c4t1.base = pstr "b1" ∧ pstr "b2" ≠ pstr "b1" ∧
    c4t1.id = 1 ∧ c4t1.url = pstr "u1" := by
  decide

/-! ### Lemmas about the verifier reconciliation -/

theorem dictMem_iff {β : Type} (k : PyStr) (t : List (PyStr × β)) :
    dictMem k t = true ↔ k ∈ dictKeys t := by
  unfold dictMem dictKeys
  rw [List.any_eq_true]
  constructor
  · rintro ⟨p, hp, he⟩
    rw [decide_eq_true_eq] at he
    exact he ▸ List.mem_map_of_mem (fun p => p.1) hp
  · intro h
    rcases List.mem_map.1 h with ⟨p, hp, he⟩
    refine ⟨p, hp, ?_⟩
    rw [decide_eq_true_eq]
    exact he

theorem mem_dictKeys_dictRemove {β : Type} (k k' : PyStr) :
    ∀ (t : List (PyStr × β)), (dictKeys t).Nodup →
      (k' ∈ dictKeys (dictRemove k t) ↔ k' ∈ dictKeys t ∧ k' ≠ k) := by
  intro t
  induction t with
  | nil =>
    intro _
    exact ⟨fun h => absurd h (List.not_mem_nil k'), fun h => absurd h.1 (List.not_mem_nil k')⟩
  | cons p rest ih =>
    intro hnd
    have hnd' : (p.1 :: dictKeys rest).Nodup := hnd
    have hp1 : p.1 ∉ dictKeys rest := (List.nodup_cons.1 hnd').1
    have hnd1 : (dictKeys rest).Nodup := (List.nodup_cons.1 hnd').2
    by_cases he : p.1 = k
    · have hrw : dictRemove k (p :: rest) = rest :=
        List.eraseP_cons_of_pos (by simpa using he)
      rw [hrw]
      subst he
      constructor
      · intro h
        refine ⟨List.mem_cons_of_mem p.1 h, fun hk => hp1 (hk ▸ h)⟩
      · rintro ⟨h1, h2⟩
        rcases List.mem_cons.1 h1 with h1 | h1
        · exact absurd h1 h2
        · exact h1
    · have hrw : dictRemove k (p :: rest) = p :: dictRemove k rest :=
        List.eraseP_cons_of_neg (by simpa using he)
      rw [hrw]
      have hkeys : dictKeys (p :: dictRemove k rest) = p.1 :: dictKeys (dictRemove k rest) := rfl
      rw [hkeys]
      constructor
      · intro h
        rcases List.mem_cons.1 h with h | h
        · refine ⟨?_, fun hk => he (h.symm.trans hk)⟩
          rw [h]
          exact List.mem_cons_self p.1 (dictKeys rest)
        · rcases (ih hnd1).1 h with ⟨h1, h2⟩
          exact ⟨List.mem_cons_of_mem p.1 h1, h2⟩
      · rintro ⟨h1, h2⟩
        rcases List.mem_cons.1 h1 with h1 | h1
        · exact h1 ▸ List.mem_cons_self p.1 (dictKeys (dictRemove k rest))
        · exact List.mem_cons_of_mem p.1 ((ih hnd1).2 ⟨h1, h2⟩)

theorem dictKeys_dictRemove_sublist {β : Type} (k : PyStr) (t : List (PyStr × β)) :
    (dictKeys (dictRemove k t)).Sublist (dictKeys t) := by
  unfold dictKeys dictRemove
  exact List.Sublist.map (fun p => p.1) (List.eraseP_sublist t)

theorem dictKeys_dictRemove_nodup {β : Type} (k : PyStr) (t : List (PyStr × β))
    (h : (dictKeys t).Nodup) : (dictKeys (dictRemove k t)).Nodup :=
  (dictKeys_dictRemove_sublist k t).nodup h

theorem removePass_cons (c : HrefsTable) (e : Nat) (k : PyStr) (ks : List PyStr) :
    removePass c e (k :: ks) =
      if dictMem k c then removePass (dictRemove k c) e ks else removePass c (e + 1) ks := by
  by_cases h : dictMem k c = true <;> simp [removePass, h]

theorem removePass_errors_le (ks : List PyStr) :
    ∀ (c : HrefsTable) (e : Nat), e ≤ (removePass c e ks).2 := by
  induction ks with
  | nil => intro c e; simp [removePass]
  | cons k ks ih =>
    intro c e
    rw [removePass_cons]
    by_cases h : dictMem k c = true
    · simpa [h] using ih (dictRemove k c) e
    · simp only [h]
      calc e ≤ e + 1 := Nat.le_succ e
        _ ≤ (removePass c (e + 1) ks).2 := ih c (e + 1)

theorem removePass_zero_iff (ks : List PyStr) :
    ∀ (c : HrefsTable) (e : Nat), (dictKeys c).Nodup →
      ((removePass c e ks).2 = e ↔ ks.Nodup ∧ ∀ k ∈ ks, k ∈ dictKeys c) := by
  induction ks with
  | nil => intro c e _; simp [removePass]
  | cons k ks ih =>
    intro c e hnd
    rw [removePass_cons]
    by_cases hm : dictMem k c = true
    · simp only [hm, if_pos]
      rw [ih (dictRemove k c) e (dictKeys_dictRemove_nodup k c hnd)]
      have hk : k ∈ dictKeys c := (dictMem_iff k c).1 hm
      constructor
      · rintro ⟨h1, h2⟩
        have hnotin : k ∉ ks := by
          intro hin
          exact ((mem_dictKeys_dictRemove k k c hnd).1 (h2 k hin)).2 rfl
        refine ⟨List.nodup_cons.2 ⟨hnotin, h1⟩, ?_⟩
        intro k' hk'
        rcases List.mem_cons.1 hk' with h | h
        · exact h ▸ hk
        · exact ((mem_dictKeys_dictRemove k k' c hnd).1 (h2 k' h)).1
      · rintro ⟨h1, h2⟩
        have h1' := List.nodup_cons.1 h1
        refine ⟨h1'.2, ?_⟩
        intro k' hk'
        refine (mem_dictKeys_dictRemove k k' c hnd).2 ⟨h2 k' (List.mem_cons_of_mem _ hk'), ?_⟩
        intro he
        exact h1'.1 (he ▸ hk')
    · simp only [hm]
      rw [if_neg (by simp [hm])]
      have h1 : e + 1 ≤ (removePass c (e + 1) ks).2 := removePass_errors_le ks c (e + 1)
      have h2 : k ∉ dictKeys c := fun h => hm ((dictMem_iff k c).2 h)
      constructor
      · intro h; omega
      · rintro ⟨_, h3⟩
        exact absurd (h3 k (List.mem_cons_self k ks)) h2

theorem removePass_append (c : HrefsTable) (e : Nat) (a b : List PyStr) :
    removePass c e (a ++ b) =
      removePass (removePass c e a).1 (removePass c e a).2 b := by
  simp [removePass, List.foldl_append]

/-! ### Claim theorems for the verifier abort condition -/

/-- Claim C6 counterexample: with an empty collection and a one-key mapping
the count check fails and the key is left unmatched in the working copy, yet
collection_verify returns normally, because leftover entries are only printed
and never counted as errors. -/
theorem claim6_counterexample :
    (collection_verify [] c6ht).2.2 = .ok () ∧
    verifyKeys [] = [] ∧ c6ht.length = 1 ∧
    (directories_get []).length + (tables_get []).length = 0 := by
  decide

/-- Claim C6 amended: collection_verify aborts fatally if and only if the
count check fails and the sequence of removal keys (table urls then directory
urls, lead-in stripped) is not a duplicate-free subset of the mapping keys;
entries remaining in the working copy do not by themselves abort the run. -/
theorem claim6_amended (col : Collection) (ht : HrefsTable)
    (hnd : (dictKeys ht).Nodup) :
    ((collection_verify col ht).2.2 = .error .assertionError ↔
      (ht.length ≠ (directories_get col).length + (tables_get col).length ∧
       ¬ ((verifyKeys col).Nodup ∧ ∀ k ∈ verifyKeys col, k ∈ dictKeys ht))) := by
  simp only [collection_verify]
  split
  case isTrue hlen => simp [hlen]
  case isFalse hlen =>
    have hcomb :
        removePass (removePass ht 0 ((tables_get col).map tableKeyOf)).1
            (removePass ht 0 ((tables_get col).map tableKeyOf)).2
            ((directories_get col).map dirKeyOf) =
          removePass ht 0 (verifyKeys col) :=
      (removePass_append ht 0 _ _).symm
    rw [hcomb]
    have hiff := removePass_zero_iff (verifyKeys col) ht 0 hnd
    split
    case isTrue hz =>
      constructor
      · intro h
        simp at h
      · rintro ⟨-, hbad⟩
        exact absurd (hiff.1 hz) hbad
    case isFalse hz =>
      constructor
      · intro _
        exact ⟨hlen, fun hgood => hz (hiff.2 hgood)⟩
      · intro _
        rfl

/-- Witness for the amended claim C6: one directory with an unmatched url key
and an empty mapping make the verifier abort. -/
theorem claim6_amended_witness :
    (collection_verify c6col []).2.2 = .error .assertionError :=
  (claim6_amended c6col [] (by decide)).mpr (by decide)

/-! ### Lemmas about the match extractor -/

theorem pyStartsWith_iff (p s : PyStr) :
    pyStartsWith p s = true ↔ ∃ t, s = p ++ t := by
  unfold pyStartsWith
  rw [List.isPrefixOf_iff_prefix]
  constructor
  · rintro ⟨t, ht⟩; exact ⟨t, ht.symm⟩
  · rintro ⟨t, ht⟩; exact ⟨t, ht.symm⟩

theorem pyFind_append_none (c : Char) :
    ∀ (l r : PyStr), pyFind c l = none → pyFind c r = none →
      pyFind c (l ++ r) = none := by
  intro l
  induction l with
  | nil => intro r _ hr; simpa using hr
  | cons d rest ih =>
    intro r hl hr
    simp only [pyFind] at hl
    split at hl
    · simp at hl
    · next hne =>
      have h1 : pyFind c rest = none := by
        rcases ho : pyFind c rest with _ | i
        · rfl
        · rw [ho] at hl; simp at hl
      show pyFind c (d :: (rest ++ r)) = none
      simp only [pyFind]
      rw [if_neg hne, ih r h1 hr]
      rfl

theorem pyFind_append_some (c : Char) :
    ∀ (l r : PyStr) (i : Nat), pyFind c l = none → pyFind c r = some i →
      pyFind c (l ++ r) = some (l.length + i) := by
  intro l
  induction l with
  | nil => intro r i _ hr; simpa using hr
  | cons d rest ih =>
    intro r i hl hr
    simp only [pyFind] at hl
    split at hl
    · simp at hl
    · next hne =>
      have h1 : pyFind c rest = none := by
        rcases ho : pyFind c rest with _ | j
        · rfl
        · rw [ho] at hl; simp at hl
      show pyFind c (d :: (rest ++ r)) = some ((d :: rest).length + i)
      simp only [pyFind]
      rw [if_neg hne, ih r i h1 hr]
      show some (rest.length + i + 1) = some (rest.length + 1 + i)
      exact congrArg some (by omega)

theorem stripQuery_append (p t : PyStr) (hp : pyFind '?' p = none) :
    stripQuery (p ++ t) = p ++ stripQuery t := by
  unfold stripQuery
  cases hr : pyFind '?' t with
  | none => rw [pyFind_append_none '?' p t hp hr]
  | some i =>
    rw [pyFind_append_some '?' p t i hp hr]
    exact List.take_append i

theorem stripped_key (t : PyStr) :
    (stripQuery (urlPfx ++ t)).drop urlPfx.length = stripQuery t := by
  rw [stripQuery_append urlPfx t (by decide)]
  exact List.drop_left urlPfx (stripQuery t)

theorem append_eq_self_iff (p x : PyStr) : p ++ x = p ↔ x = [] := by
  constructor
  · intro h
    have h2 : p ++ x = p ++ [] := by simpa using h
    exact List.append_cancel_left h2
  · intro h
    simp [h]

theorem anchor_process_empty_key (a : Anchor) :
    (∃ km, anchor_process a = .ok (some km) ∧ km.1 = []) ↔
      (∃ h0, a.href = some h0 ∧ pyStartsWith urlPfx h0 = true ∧ h0 ≠ urlPfx ∧
        stripQuery h0 = urlPfx) := by
  rcases ha : a.href with _ | h0
  · simp only [anchor_process, ha]
    constructor
    · rintro ⟨km, hkm, _⟩; simp at hkm
    · rintro ⟨h0, hh0, _⟩; simp at hh0
  · simp only [anchor_process, ha]
    by_cases hq : pyStartsWith urlPfx h0 = true ∧ h0 ≠ urlPfx
    · rw [if_pos hq]
      obtain ⟨t, ht⟩ := (pyStartsWith_iff urlPfx h0).1 hq.1
      subst ht
      have hiff : stripQuery (urlPfx ++ t) = urlPfx ↔ stripQuery t = [] := by
        rw [stripQuery_append urlPfx t (by decide)]
        exact append_eq_self_iff urlPfx (stripQuery t)
      rw [stripped_key t]
      cases hr : pyRfind '/' (stripQuery t) with
      | some i =>
        cases hn : pyInt ((stripQuery t).drop (i + 1)) with
        | none =>
          constructor
          · rintro ⟨km, hkm, -⟩
            simp [hn] at hkm
          · rintro ⟨h1, hh1, -, -, hsq⟩
            have he1 : h1 = urlPfx ++ t := by
              injection hh1 with hx
              exact hx.symm
            subst he1
            have hte : stripQuery t = [] := hiff.1 hsq
            rw [hte] at hr
            simp [pyRfind, pyFind] at hr
        | some n =>
          constructor
          · rintro ⟨km, hkm, hk1⟩
            simp only [hn, Except.ok.injEq, Option.some.injEq] at hkm
            rw [← hkm] at hk1
            have hte : stripQuery t = [] := hk1
            rw [hte] at hr
            simp [pyRfind, pyFind] at hr
          · rintro ⟨h1, hh1, -, -, hsq⟩
            have he1 : h1 = urlPfx ++ t := by
              injection hh1 with hx
              exact hx.symm
            subst he1
            have hte : stripQuery t = [] := hiff.1 hsq
            rw [hte] at hr
            simp [pyRfind, pyFind] at hr
      | none =>
        constructor
        · rintro ⟨km, hkm, hk1⟩
          have hkme : km = ((stripQuery t),
              ⟨stripQuery t, stripQuery t, -1,
               a_contents_text a, li_contents_text a, absPfx ++ stripQuery t⟩) := by
            have := hkm
            simp only [Except.ok.injEq, Option.some.injEq] at this
            exact this.symm
          refine ⟨urlPfx ++ t, rfl, hq.1, hq.2, hiff.2 ?_⟩
          rw [hkme] at hk1
          exact hk1
        · rintro ⟨h1, hh1, -, -, hsq⟩
          have he1 : h1 = urlPfx ++ t := by
            injection hh1 with hx
            exact hx.symm
          subst he1
          exact ⟨_, rfl, hiff.1 hsq⟩
    · rw [if_neg hq]
      constructor
      · rintro ⟨km, hkm, _⟩; simp at hkm
      · rintro ⟨h1, hh1, hps, hne, -⟩
        have he1 : h1 = h0 := by
          injection hh1 with hx
          exact hx.symm
        subst he1
        exact absurd ⟨hps, hne⟩ hq

theorem mem_dictKeys_alistAppend {β : Type} (t : List (PyStr × List β)) (k k' : PyStr)
    (v : β) : k' ∈ dictKeys (alistAppend t k v) ↔ k' ∈ dictKeys t ∨ k' = k := by
  unfold alistAppend
  by_cases hm : dictMem k t = true
  · rw [if_pos hm]
    have hkeys : dictKeys (t.map fun p => if p.1 = k then (p.1, p.2 ++ [v]) else p)
        = dictKeys t := by
      unfold dictKeys
      rw [List.map_map]
      refine List.map_congr_left ?_
      intro p _
      by_cases hp : p.1 = k
      · simp [hp]
      · simp [hp]
    rw [hkeys]
    constructor
    · exact Or.inl
    · rintro (h | rfl)
      · exact h
      · exact (dictMem_iff k' t).1 hm
  · rw [if_neg hm]
    unfold dictKeys
    rw [List.map_append]
    constructor
    · intro h
      rcases List.mem_append.1 h with h | h
      · exact Or.inl h
      · rcases List.mem_cons.1 h with h | h
        · exact Or.inr h
        · cases h
    · rintro (h | rfl)
      · exact List.mem_append.2 (Or.inl h)
      · exact List.mem_append.2 (Or.inr (List.mem_cons_self _ _))

theorem soup_go_ok_keys :
    ∀ (as : List Anchor) (acc m : HrefsTable), soup_go acc as = .ok m →
      ∀ k, (k ∈ dictKeys m ↔ k ∈ dictKeys acc ∨
        ∃ a ∈ as, ∃ km, anchor_process a = .ok (some km) ∧ km.1 = k) := by
  intro as
  induction as with
  | nil =>
    intro acc m h k
    simp only [soup_go, Except.ok.injEq] at h
    subst h
    constructor
    · exact Or.inl
    · rintro (h1 | ⟨a, ha, -⟩)
      · exact h1
      · cases ha
  | cons a rest ih =>
    intro acc m h k
    simp only [soup_go] at h
    cases hp : anchor_process a with
    | error e => rw [hp] at h; simp at h
    | ok o =>
      rw [hp] at h
      cases o with
      | none =>
        rw [ih acc m h k]
        constructor
        · rintro (h1 | ⟨a2, ha2, hrest⟩)
          · exact Or.inl h1
          · exact Or.inr ⟨a2, List.mem_cons_of_mem a ha2, hrest⟩
        · rintro (h1 | ⟨a2, ha2, km, hkm, hk⟩)
          · exact Or.inl h1
          · rcases List.mem_cons.1 ha2 with he | ha2
            · subst he
              rw [hp] at hkm
              simp at hkm
            · exact Or.inr ⟨a2, ha2, km, hkm, hk⟩
      | some km0 =>
        rw [ih _ m h k, mem_dictKeys_alistAppend acc km0.1 k km0.2]
        constructor
        · rintro ((h1 | he) | ⟨a2, ha2, hrest⟩)
          · exact Or.inl h1
          · exact Or.inr ⟨a, List.mem_cons_self a rest, km0, hp, he.symm⟩
          · exact Or.inr ⟨a2, List.mem_cons_of_mem a ha2, hrest⟩
        · rintro (h1 | ⟨a2, ha2, km, hkm, hk⟩)
          · exact Or.inl (Or.inl h1)
          · rcases List.mem_cons.1 ha2 with he | ha2
            · subst he
              rw [hp] at hkm
              have hke : km0 = km := by
                injection hkm with h1
                injection h1 with h2
              exact Or.inl (Or.inr (hke ▸ hk).symm)
            · exact Or.inr ⟨a2, ha2, km, hkm, hk⟩

/-! ### Claim theorems for the match extractor empty key -/

/-- Claim C5 counterexample: the anchor href /products/en/?x starts with the
lead-in and differs from it, yet after query stripping the derived key is the
empty string, which therefore appears in the output mapping. -/
theorem claim5_counterexample :
    soup_extract [c5anchor] = .ok c5out ∧ dictKeys c5out = [[]] ∧
    c5anchor.href = some (pstr "/products/en/?x") ∧
    pyStartsWith urlPfx (pstr "/products/en/?x") = true ∧
    pstr "/products/en/?x" ≠ urlPfx := by
  decide

/-- Claim C5 amended: the empty key appears in the mapping produced by
soup_extract exactly when some anchor href starts with the lead-in, differs
from the bare lead-in, and reduces to the bare lead-in once its query suffix
is stripped; in particular an href equal to the lead-in is still skipped. -/
theorem claim5_amended (anchors : List Anchor) (m : HrefsTable)
    (h : soup_extract anchors = .ok m) :
    ([] ∈ dictKeys m ↔ ∃ a ∈ anchors, ∃ h0, a.href = some h0 ∧
      pyStartsWith urlPfx h0 = true ∧ h0 ≠ urlPfx ∧ stripQuery h0 = urlPfx) := by
  rw [soup_go_ok_keys anchors [] m h []]
  constructor
  · rintro (h1 | ⟨a, ha, hkm⟩)
    · cases h1
    · exact ⟨a, ha, (anchor_process_empty_key a).1 hkm⟩
  · rintro ⟨a, ha, hex⟩
    exact Or.inr ⟨a, ha, (anchor_process_empty_key a).2 hex⟩

/-- Witness for the amended claim C5 at the query-only anchor. -/
theorem claim5_amended_witness :
    ([] ∈ dictKeys c5out ↔ ∃ a ∈ [c5anchor], ∃ h0, a.href = some h0 ∧
      pyStartsWith urlPfx h0 = true ∧ h0 ≠ urlPfx ∧ stripQuery h0 = urlPfx) :=
  claim5_amended [c5anchor] c5out (by decide)

/-! ### Lemmas about extraction failure on malformed ids -/

theorem anchor_process_error_iff (a : Anchor) :
    (∃ e, anchor_process a = .error e) ↔
      (∃ h0, a.href = some h0 ∧ pyStartsWith urlPfx h0 = true ∧ h0 ≠ urlPfx ∧
        ∃ i, pyRfind '/' ((stripQuery h0).drop urlPfx.length) = some i ∧
          pyInt (((stripQuery h0).drop urlPfx.length).drop (i + 1)) = none) := by
  rcases ha : a.href with _ | h0
  · simp only [anchor_process, ha]
    constructor
    · rintro ⟨e, he⟩; simp at he
    · rintro ⟨h1, hh1, -⟩; simp at hh1
  · simp only [anchor_process, ha]
    by_cases hq : pyStartsWith urlPfx h0 = true ∧ h0 ≠ urlPfx
    · rw [if_pos hq]
      cases hr : pyRfind '/' ((stripQuery h0).drop urlPfx.length) with
      | none =>
        constructor
        · rintro ⟨e, he⟩
          simp at he
        · rintro ⟨h1, hh1, -, -, i, hri, -⟩
          have he1 : h1 = h0 := by
            injection hh1 with hx
            exact hx.symm
          subst he1
          rw [hr] at hri
          simp at hri
      | some i =>
        cases hn : pyInt (((stripQuery h0).drop urlPfx.length).drop (i + 1)) with
        | none =>
          constructor
          · rintro ⟨e, -⟩
            exact ⟨h0, rfl, hq.1, hq.2, i, hr, hn⟩
          · rintro -
            refine ⟨.valueError, ?_⟩
            simp only [hn]
        | some n =>
          constructor
          · rintro ⟨e, he⟩
            simp only [hn] at he
            simp at he
          · rintro ⟨h1, hh1, -, -, i2, hri, hni⟩
            have he1 : h1 = h0 := by
              injection hh1 with hx
              exact hx.symm
            subst he1
            rw [hr] at hri
            have hie : i2 = i := by
              injection hri with hx
              exact hx.symm
            subst hie
            rw [hn] at hni
            simp at hni
    · rw [if_neg hq]
      constructor
      · rintro ⟨e, he⟩; simp at he
      · rintro ⟨h1, hh1, hps, hne, -⟩
        have he1 : h1 = h0 := by
          injection hh1 with hx
          exact hx.symm
        subst he1
        exact absurd ⟨hps, hne⟩ hq

theorem anchor_process_error_val (a : Anchor) (e : PyErr)
    (h : anchor_process a = .error e) : e = .valueError := by
  rcases ha : a.href with _ | h0
  · simp only [anchor_process, ha] at h
    simp at h
  · simp only [anchor_process, ha] at h
    split at h
    · split at h
      · split at h
        · injection h with h2
          exact h2.symm
        · simp at h
      · simp at h
    · simp at h

theorem soup_go_error_iff :
    ∀ (as : List Anchor) (acc : HrefsTable),
      ((∃ e, soup_go acc as = .error e) ↔
        ∃ a ∈ as, ∃ e, anchor_process a = .error e) := by
  intro as
  induction as with
  | nil =>
    intro acc
    constructor
    · rintro ⟨e, he⟩; simp [soup_go] at he
    · rintro ⟨a, ha, -⟩; cases ha
  | cons a rest ih =>
    intro acc
    simp only [soup_go]
    cases hp : anchor_process a with
    | error e =>
      simp only [hp]
      constructor
      · rintro -
        exact ⟨a, List.mem_cons_self a rest, e, hp⟩
      · rintro -
        exact ⟨e, rfl⟩
    | ok o =>
      cases o with
      | none =>
        simp only [hp]
        rw [ih acc]
        constructor
        · rintro ⟨a2, ha2, he2⟩
          exact ⟨a2, List.mem_cons_of_mem a ha2, he2⟩
        · rintro ⟨a2, ha2, e2, he2⟩
          rcases List.mem_cons.1 ha2 with he | ha2
          · subst he
            rw [hp] at he2
            simp at he2
          · exact ⟨a2, ha2, e2, he2⟩
      | some km =>
        simp only [hp]
        rw [ih (alistAppend acc km.1 km.2)]
        constructor
        · rintro ⟨a2, ha2, he2⟩
          exact ⟨a2, List.mem_cons_of_mem a ha2, he2⟩
        · rintro ⟨a2, ha2, e2, he2⟩
          rcases List.mem_cons.1 ha2 with he | ha2
          · subst he
            rw [hp] at he2
            simp at he2
          · exact ⟨a2, ha2, e2, he2⟩

theorem soup_go_error_val :
    ∀ (as : List Anchor) (acc : HrefsTable) (e : PyErr),
      soup_go acc as = .error e → e = .valueError := by
  intro as
  induction as with
  | nil => intro acc e h; simp [soup_go] at h
  | cons a rest ih =>
    intro acc e h
    simp only [soup_go] at h
    cases hp : anchor_process a with
    | error e2 =>
      rw [hp] at h
      have he : e2 = e := by
        injection h with hx
      exact he ▸ anchor_process_error_val a e2 hp
    | ok o =>
      rw [hp] at h
      cases o with
      | none => exact ih acc e h
      | some km => exact ih (alistAppend acc km.1 km.2) e h

/-! ### Claim theorem for totality of soup_extract -/

/-- Claim C10: soup_extract succeeds if and only if no qualifying anchor has a
stripped href whose segment after the final slash fails to parse as an
integer; when such an anchor exists the run raises an unhandled ValueError
(the only error this sweep can produce). -/
theorem claim10_totality (anchors : List Anchor) :
    ((∃ e, soup_extract anchors = .error e) ↔
      ∃ a ∈ anchors, ∃ h0, a.href = some h0 ∧ pyStartsWith urlPfx h0 = true ∧
        h0 ≠ urlPfx ∧
        ∃ i, pyRfind '/' ((stripQuery h0).drop urlPfx.length) = some i ∧
          pyInt (((stripQuery h0).drop urlPfx.length).drop (i + 1)) = none) ∧
    (∀ e, soup_extract anchors = .error e → e = .valueError) := by
  constructor
  · rw [show soup_extract anchors = soup_go [] anchors from rfl]
    rw [soup_go_error_iff anchors []]
    exact exists_congr fun a => and_congr_right fun _ => anchor_process_error_iff a
  · intro e he
    exact soup_go_error_val anchors [] e he

/-- Witness for claim C10 at an anchor whose href ends in a slash. -/
theorem claim10_totality_witness :
    ∃ e, soup_extract [c10anchor] = .error e :=
  (claim10_totality [c10anchor]).1.mpr
    ⟨c10anchor, List.mem_cons_self c10anchor [],
     pstr "/products/en/audio/", rfl, by decide, by decide,
     5, by decide, by decide⟩

/-! ### Lemmas about the stable sort and the separator split -/

theorem insertStable_perm {α : Type} (le : α → α → Bool) (x : α) :
    ∀ (l : List α), (insertStable le x l).Perm (x :: l) := by
  intro l
  induction l with
  | nil => exact List.Perm.refl [x]
  | cons y ys ih =>
    simp only [insertStable]
    split
    · exact ((ih.cons y).trans (List.Perm.swap x y ys))
    · exact List.Perm.refl (x :: y :: ys)

theorem pySorted_perm_aux {α : Type} (le : α → α → Bool) :
    ∀ (l acc : List α),
      (l.foldl (fun acc x => insertStable le x acc) acc).Perm (l ++ acc) := by
  intro l
  induction l with
  | nil => intro acc; exact List.Perm.refl acc
  | cons x xs ih =>
    intro acc
    simp only [List.foldl_cons, List.cons_append]
    have h1 := ih (insertStable le x acc)
    have h2 : (xs ++ insertStable le x acc).Perm (xs ++ (x :: acc)) :=
      List.Perm.append_left xs (insertStable_perm le x acc)
    have h3 : (xs ++ (x :: acc)).Perm (x :: (xs ++ acc)) := List.perm_middle
    exact (h1.trans h2).trans h3

theorem pySorted_perm {α : Type} (le : α → α → Bool) (l : List α) :
    (pySorted le l).Perm l := by
  have h := pySorted_perm_aux le l []
  simpa using h

theorem mem_pySorted {α : Type} (le : α → α → Bool) (l : List α) (x : α) :
    x ∈ pySorted le l ↔ x ∈ l :=
  (pySorted_perm le l).mem_iff

theorem pySorted_nodup {α : Type} (le : α → α → Bool) (l : List α) (h : l.Nodup) :
    (pySorted le l).Nodup :=
  ((pySorted_perm le l).nodup_iff).2 h

theorem splitFirstSep_append (sep : PyStr) :
    ∀ (s l r : PyStr), splitFirstSep sep s = some (l, r) → s = l ++ sep ++ r := by
  intro s
  induction s with
  | nil =>
    intro l r h
    simp only [splitFirstSep] at h
    split at h
    · next hsep =>
      subst hsep
      simp only [Option.some.injEq, Prod.mk.injEq] at h
      rw [← h.1, ← h.2]
      rfl
    · simp at h
  | cons c rest ih =>
    intro l r h
    simp only [splitFirstSep] at h
    split at h
    · next hpre =>
      simp only [Option.some.injEq, Prod.mk.injEq] at h
      obtain ⟨t, htp⟩ := (List.isPrefixOf_iff_prefix.1 hpre)
      rw [← h.1, ← h.2, List.nil_append, ← htp, List.drop_left]
    · rcases ho : splitFirstSep sep rest with _ | lr
      · rw [ho] at h; simp at h
      · rw [ho] at h
        have h2 : some ((c :: lr.1, lr.2) : PyStr × PyStr) = some (l, r) := h
        simp only [Option.some.injEq, Prod.mk.injEq] at h2
        have hrest := ih lr.1 lr.2 (by rw [ho])
        rw [← h2.1, ← h2.2]
        simp only [List.cons_append]
        rw [hrest]

theorem splitFirstSep_not_infix (sep : PyStr) (hne : sep ≠ []) :
    ∀ (s l r : PyStr), splitFirstSep sep s = some (l, r) → ¬ (sep <:+: l) := by
  intro s
  induction s with
  | nil =>
    intro l r h
    simp only [splitFirstSep] at h
    split at h
    · next hsep => exact absurd hsep hne
    · simp at h
  | cons c rest ih =>
    intro l r h
    simp only [splitFirstSep] at h
    split at h
    · next hpre =>
      simp only [Option.some.injEq, Prod.mk.injEq] at h
      intro hinf
      rw [← h.1] at hinf
      exact hne (List.infix_nil.1 hinf)
    · next hpre =>
      rcases ho : splitFirstSep sep rest with _ | lr
      · rw [ho] at h; simp at h
      · rw [ho] at h
        have h2 : some ((c :: lr.1, lr.2) : PyStr × PyStr) = some (l, r) := h
        simp only [Option.some.injEq, Prod.mk.injEq] at h2
        intro hinf
        rw [← h2.1] at hinf
        rcases List.infix_cons_iff.1 hinf with hp | hi
        · have hrest := splitFirstSep_append sep rest lr.1 lr.2 (by rw [ho])
          have hlp : c :: lr.1 <+: c :: rest := by
            refine List.cons_prefix_cons.2 ⟨rfl, ?_⟩
            exact ⟨sep ++ lr.2, by rw [hrest, List.append_assoc]⟩
          have : sep <+: c :: rest := hp.trans hlp
          exact hpre (List.isPrefixOf_iff_prefix.2 this)
        · exact ih lr.1 lr.2 (by rw [ho]) hi

theorem pyStripChars_infix (cs s : PyStr) : pyStripChars cs s <:+: s := by
  unfold pyStripChars
  have h1 : s.dropWhile (fun c => cs.contains c) <:+ s :=
    List.dropWhile_suffix (fun c => cs.contains c)
  have h2 : (s.dropWhile (fun c => cs.contains c)).reverse.dropWhile (fun c => cs.contains c)
      <:+ (s.dropWhile (fun c => cs.contains c)).reverse :=
    List.dropWhile_suffix (fun c => cs.contains c)
  have h3 : ((s.dropWhile (fun c => cs.contains c)).reverse.dropWhile
      (fun c => cs.contains c)).reverse <+: s.dropWhile (fun c => cs.contains c) := by
    rw [← List.reverse_suffix]
    simpa using h2
  exact h3.isInfix.trans h1.isInfix

theorem pyStrip_infix (s : PyStr) : pyStrip s <:+: s := pyStripChars_infix pyWsChars s

theorem pyStrip_length_le (s : PyStr) : (pyStrip s).length ≤ s.length :=
  ( pyStrip_infix s).sublist.length_le

theorem sep_infix_of_split (s l r : PyStr) (h : splitFirstSep sepStr s = some (l, r)) :
    sepStr <:+: s := by
  rw [splitFirstSep_append sepStr s l r h]
  exact List.infix_append l sepStr r

theorem groupKey_no_sep (t : DigikeyTable) (k : PyStr) (h : groupKeyOf t = some k) :
    ¬ (sepStr <:+: k) := by
  unfold groupKeyOf at h
  rcases ho : splitFirstSep sepStr t.name with _ | lr
  · rw [ho] at h; simp at h
  · rw [ho] at h
    simp only [Option.some.injEq] at h
    intro hinf
    refine splitFirstSep_not_infix sepStr (by decide) t.name lr.1 lr.2 ho ?_
    rw [← h] at hinf
    exact hinf.trans ( pyStripChars_infix pyWsChars lr.1) 

/-! ### Lemmas about the groups dictionary -/

theorem dictMem_false_find_none {β : Type} (t : List (PyStr × List β)) (k : PyStr)
    (h : dictMem k t = false) : t.find? (fun p => decide (p.1 = k)) = none := by
  rw [List.find?_eq_none]
  intro p hp hpk
  rw [decide_eq_true_eq] at hpk
  have hmem : dictMem k t = true :=
    (dictMem_iff k t).2 (hpk ▸ List.mem_map_of_mem (fun p => p.1) hp)
  rw [h] at hmem
  cases hmem

theorem dictFind_of_not_mem {β : Type} (t : List (PyStr × List β)) (k : PyStr)
    (h : dictMem k t = false) : dictFind t k = [] := by
  unfold dictFind
  rw [dictMem_false_find_none t k h]
  rfl

theorem dictFind_cons {β : Type} (p : PyStr × List β) (rest : List (PyStr × List β))
    (k : PyStr) :
    dictFind (p :: rest) k = if p.1 = k then p.2 else dictFind rest k := by
  unfold dictFind
  by_cases hp : p.1 = k
  · rw [if_pos hp, List.find?_cons_of_pos]
    · rfl
    · simpa using hp
  · rw [if_neg hp, List.find?_cons_of_neg]
    simpa using hp

theorem dictMem_cons {β : Type} (p : PyStr × List β) (rest : List (PyStr × List β))
    (k : PyStr) : dictMem k (p :: rest) = (decide (p.1 = k) || dictMem k rest) := by
  simp [dictMem]

theorem dictFind_update_self {β : Type} (k : PyStr) (v : β) :
    ∀ (gt : List (PyStr × List β)),
      dictFind (gt.map fun p => if p.1 = k then (p.1, p.2 ++ [v]) else p) k =
        if dictMem k gt = true then dictFind gt k ++ [v] else [] := by
  intro gt
  induction gt with
  | nil => simp [dictMem, dictFind]
  | cons p rest ih =>
    by_cases hp : p.1 = k
    · have hf : (if p.1 = k then (p.1, p.2 ++ [v]) else p) = (p.1, p.2 ++ [v]) := if_pos hp
      have hm : dictMem k (p :: rest) = true := by
        rw [dictMem_cons]
        simp [hp]
      rw [List.map_cons, hf, dictFind_cons, hm, dictFind_cons]
      simp only [hp, if_pos rfl]
      rfl
    · have hf : (if p.1 = k then (p.1, p.2 ++ [v]) else p) = p := if_neg hp
      have hm : dictMem k (p :: rest) = dictMem k rest := by
        rw [dictMem_cons]
        simp [hp]
      rw [List.map_cons, hf, dictFind_cons, if_neg hp, hm, dictFind_cons, if_neg hp]
      exact ih

theorem dictFind_update_other {β : Type} (k : PyStr) (v : β) (k' : PyStr) (hne : k' ≠ k) :
    ∀ (gt : List (PyStr × List β)),
      dictFind (gt.map fun p => if p.1 = k then (p.1, p.2 ++ [v]) else p) k' =
        dictFind gt k' := by
  intro gt
  induction gt with
  | nil => rfl
  | cons p rest ih =>
    by_cases hp : p.1 = k
    · have hf : (if p.1 = k then (p.1, p.2 ++ [v]) else p) = (p.1, p.2 ++ [v]) := if_pos hp
      have hp2 : ¬ p.1 = k' := by
        rw [hp]
        exact fun he => hne he.symm
      rw [List.map_cons, hf, dictFind_cons, dictFind_cons, if_neg hp2]
      have hp3 : ¬ ((p.1, p.2 ++ [v]) : PyStr × List β).1 = k' := hp2
      rw [if_neg hp3]
      exact ih
    · have hf : (if p.1 = k then (p.1, p.2 ++ [v]) else p) = p := if_neg hp
      rw [List.map_cons, hf, dictFind_cons, dictFind_cons]
      by_cases hp2 : p.1 = k'
      · rw [if_pos hp2, if_pos hp2]
      · rw [if_neg hp2, if_neg hp2]
        exact ih

theorem dictFind_alistAppend_self {β : Type} (gt : List (PyStr × List β)) (k : PyStr)
    (v : β) : dictFind (alistAppend gt k v) k = dictFind gt k ++ [v] := by
  unfold alistAppend
  by_cases hm : dictMem k gt = true
  · rw [if_pos hm, dictFind_update_self, if_pos hm]
  · rw [if_neg hm]
    have hm2 : dictMem k gt = false := by
      rcases hb : dictMem k gt
      · rfl
      · exact absurd hb hm
    rw [dictFind_of_not_mem gt k hm2]
    unfold dictFind
    rw [List.find?_append, dictMem_false_find_none gt k hm2]
    simp

theorem dictFind_alistAppend_other {β : Type} (gt : List (PyStr × List β)) (k : PyStr)
    (v : β) (k' : PyStr) (hne : k' ≠ k) :
    dictFind (alistAppend gt k v) k' = dictFind gt k' := by
  unfold alistAppend
  by_cases hm : dictMem k gt = true
  · rw [if_pos hm]
    exact dictFind_update_other k v k' hne gt
  · rw [if_neg hm]
    unfold dictFind
    rw [List.find?_append]
    have hone : List.find? (fun p => decide (p.1 = k')) [(k, [v])] = none := by
      simp only [List.find?_cons, List.find?_nil]
      have : ¬ ((k, [v]) : PyStr × List β).1 = k' := fun he => hne he.symm
      simp [this]
    rw [hone]
    simp

theorem dictKeys_alistAppend_of_mem {β : Type} (gt : List (PyStr × List β)) (k : PyStr)
    (v : β) (hm : dictMem k gt = true) :
    dictKeys (alistAppend gt k v) = dictKeys gt := by
  unfold alistAppend
  rw [if_pos hm]
  unfold dictKeys
  rw [List.map_map]
  refine List.map_congr_left ?_
  intro p _
  by_cases hp : p.1 = k <;> simp [hp]

theorem dictKeys_alistAppend_of_not_mem {β : Type} (gt : List (PyStr × List β)) (k : PyStr)
    (v : β) (hm : ¬ dictMem k gt = true) :
    dictKeys (alistAppend gt k v) = dictKeys gt ++ [k] := by
  unfold alistAppend
  rw [if_neg hm]
  unfold dictKeys
  rw [List.map_append]
  rfl

theorem dictKeys_alistAppend_nodup {β : Type} (gt : List (PyStr × List β)) (k : PyStr)
    (v : β) (hnd : (dictKeys gt).Nodup) : (dictKeys (alistAppend gt k v)).Nodup := by
  by_cases hm : dictMem k gt = true
  · rw [dictKeys_alistAppend_of_mem gt k v hm]
    exact hnd
  · rw [dictKeys_alistAppend_of_not_mem gt k v hm]
    rw [List.nodup_append]
    refine ⟨hnd, List.nodup_singleton k, ?_⟩
    intro x hx hxk
    rcases List.mem_cons.1 hxk with he | he
    · subst he
      exact hm ((dictMem_iff x gt).2 hx)
    · cases he

theorem dictFind_of_mem_nodup {β : Type} (k : PyStr) (l : List β) :
    ∀ (t : List (PyStr × List β)), (dictKeys t).Nodup → (k, l) ∈ t →
      dictFind t k = l := by
  intro t
  induction t with
  | nil => intro _ h; cases h
  | cons p rest ih =>
    intro hnd hm
    have hnd' : (p.1 :: dictKeys rest).Nodup := hnd
    rcases List.mem_cons.1 hm with he | hm2
    · rw [← he, dictFind_cons, if_pos rfl]
    · rw [dictFind_cons]
      by_cases hp : p.1 = k
      · exfalso
        have : k ∈ dictKeys rest := List.mem_map_of_mem (fun q => q.1) hm2
        rw [hp] at hnd'
        exact (List.nodup_cons.1 hnd').1 this
      · rw [if_neg hp]
        exact ih (List.nodup_cons.1 hnd').2 hm2

theorem mem_dictKeys_exists {β : Type} (t : List (PyStr × List β)) (k : PyStr) :
    k ∈ dictKeys t ↔ ∃ l, (k, l) ∈ t := by
  constructor
  · intro h
    rcases List.mem_map.1 h with ⟨p, hp, he⟩
    exact ⟨p.2, by rw [← he]; exact hp⟩
  · rintro ⟨l, hl⟩
    exact List.mem_map_of_mem (fun q => q.1) hl

/-! ### Lemmas about the reorganizer grouping passes -/

theorem step1Groups_cons (gt : GroupsTable) (t : DigikeyTable) (ts : List DigikeyTable) :
    step1Groups gt (t :: ts) =
      step1Groups (match groupKeyOf t with
                   | some k => alistAppend gt k t
                   | none => gt) ts := rfl

theorem step1Groups_find (k : PyStr) :
    ∀ (ts : List DigikeyTable) (gt : GroupsTable),
      dictFind (step1Groups gt ts) k =
        dictFind gt k ++ ts.filter (fun t => decide (groupKeyOf t = some k)) := by
  intro ts
  induction ts with
  | nil => intro gt; simp [step1Groups]
  | cons t ts ih =>
    intro gt
    rw [step1Groups_cons]
    rcases hg : groupKeyOf t with _ | k0
    · simp only [hg]
      rw [ih gt, List.filter_cons]
      simp [hg]
    · simp only [hg]
      rw [ih (alistAppend gt k0 t), List.filter_cons]
      by_cases he : k0 = k
      · subst he
        rw [dictFind_alistAppend_self]
        have hd : decide (groupKeyOf t = some k0) = true := by simp [hg]
        rw [hd]
        simp [List.append_assoc]
      · rw [dictFind_alistAppend_other gt k0 t k (fun h2 => he h2.symm)]
        have hd : decide (groupKeyOf t = some k) = false := by
          simp [hg, he]
        simp [hd]

theorem step1Groups_keys_mem (k : PyStr) :
    ∀ (ts : List DigikeyTable) (gt : GroupsTable),
      k ∈ dictKeys (step1Groups gt ts) ↔
        k ∈ dictKeys gt ∨ ∃ t ∈ ts, groupKeyOf t = some k := by
  intro ts
  induction ts with
  | nil =>
    intro gt
    constructor
    · exact Or.inl
    · rintro (h | ⟨t, ht, -⟩)
      · exact h
      · cases ht
  | cons t ts ih =>
    intro gt
    rw [step1Groups_cons]
    rcases hg : groupKeyOf t with _ | k0
    · simp only [hg]
      rw [ih gt]
      constructor
      · rintro (h | ⟨t2, ht2, hg2⟩)
        · exact Or.inl h
        · exact Or.inr ⟨t2, List.mem_cons_of_mem t ht2, hg2⟩
      · rintro (h | ⟨t2, ht2, hg2⟩)
        · exact Or.inl h
        · rcases List.mem_cons.1 ht2 with he | ht2
          · rw [he] at hg2
            rw [hg2] at hg
            cases hg
          · exact Or.inr ⟨t2, ht2, hg2⟩
    · simp only [hg]
      rw [ih (alistAppend gt k0 t)]
      constructor
      · rintro (h | ⟨t2, ht2, hg2⟩)
        · rcases (mem_dictKeys_alistAppend gt k0 k t).1 h with h | rfl
          · exact Or.inl h
          · exact Or.inr ⟨t, List.mem_cons_self t ts, hg⟩
        · exact Or.inr ⟨t2, List.mem_cons_of_mem t ht2, hg2⟩
      · rintro (h | ⟨t2, ht2, hg2⟩)
        · exact Or.inl ((mem_dictKeys_alistAppend gt k0 k t).2 (Or.inl h))
        · rcases List.mem_cons.1 ht2 with he | ht2
          · rw [he] at hg2
            rw [hg] at hg2
            injection hg2 with hke
            exact Or.inl ((mem_dictKeys_alistAppend gt k0 k t).2 (Or.inr hke.symm))
          · exact Or.inr ⟨t2, ht2, hg2⟩

theorem step1Groups_keys_nodup :
    ∀ (ts : List DigikeyTable) (gt : GroupsTable),
      (dictKeys gt).Nodup → (dictKeys (step1Groups gt ts)).Nodup := by
  intro ts
  induction ts with
  | nil => intro gt h; exact h
  | cons t ts ih =>
    intro gt h
    rw [step1Groups_cons]
    rcases hg : groupKeyOf t with _ | k0
    · simp only [hg]
      exact ih gt h
    · simp only [hg]
      exact ih (alistAppend gt k0 t) (dictKeys_alistAppend_nodup gt k0 t h)

theorem collisionGroups_cons (gt : GroupsTable) (t : DigikeyTable)
    (ts : List DigikeyTable) :
    collisionGroups gt (t :: ts) =
      collisionGroups (if dictMem t.name gt then alistAppend gt t.name t else gt) ts := rfl

theorem collisionGroups_keys :
    ∀ (ts : List DigikeyTable) (gt : GroupsTable),
      dictKeys (collisionGroups gt ts) = dictKeys gt := by
  intro ts
  induction ts with
  | nil => intro gt; rfl
  | cons t ts ih =>
    intro gt
    rw [collisionGroups_cons]
    by_cases hm : dictMem t.name gt = true
    · rw [if_pos hm, ih (alistAppend gt t.name t),
         dictKeys_alistAppend_of_mem gt t.name t hm]
    · rw [if_neg hm]
      exact ih gt

theorem collisionGroups_find_mem (k : PyStr) :
    ∀ (ts : List DigikeyTable) (gt : GroupsTable), dictMem k gt = true →
      dictFind (collisionGroups gt ts) k =
        dictFind gt k ++ ts.filter (fun t => decide (t.name = k)) := by
  intro ts
  induction ts with
  | nil => intro gt _; simp [collisionGroups]
  | cons t ts ih =>
    intro gt hk
    rw [collisionGroups_cons, List.filter_cons]
    by_cases hm : dictMem t.name gt = true
    · rw [if_pos hm]
      have hk2 : dictMem k (alistAppend gt t.name t) = true := by
        rw [dictMem_iff, dictKeys_alistAppend_of_mem gt t.name t hm]
        exact (dictMem_iff k gt).1 hk
      rw [ih (alistAppend gt t.name t) hk2]
      by_cases he : t.name = k
      · have hd : decide (t.name = k) = true := by simp [he]
        rw [hd]
        rw [show alistAppend gt t.name t = alistAppend gt k t from by rw [he]]
        rw [dictFind_alistAppend_self gt k t, List.append_assoc]
        rfl
      · have hd : decide (t.name = k) = false := by simp [he]
        rw [hd, dictFind_alistAppend_other gt t.name t k (fun h2 => he h2.symm)]
        simp
    · rw [if_neg hm]
      have he : t.name ≠ k := by
        intro he
        rw [he, hk] at hm
        exact hm rfl
      have hd : decide (t.name = k) = false := by simp [he]
      rw [hd, ih gt hk]
      simp

theorem collisionGroups_find_not_mem (k : PyStr) :
    ∀ (ts : List DigikeyTable) (gt : GroupsTable), dictMem k gt = false →
      dictFind (collisionGroups gt ts) k = dictFind gt k := by
  intro ts
  induction ts with
  | nil => intro gt _; rfl
  | cons t ts ih =>
    intro gt hk
    rw [collisionGroups_cons]
    by_cases hm : dictMem t.name gt = true
    · rw [if_pos hm]
      have hne : t.name ≠ k := by
        intro he
        rw [he, hk] at hm
        cases hm
      have hk2 : dictMem k (alistAppend gt t.name t) = false := by
        have : k ∉ dictKeys (alistAppend gt t.name t) := by
          rw [dictKeys_alistAppend_of_mem gt t.name t hm]
          intro hin
          have := (dictMem_iff k gt).2 hin
          rw [hk] at this
          cases this
        rcases hb : dictMem k (alistAppend gt t.name t)
        · rfl
        · exact absurd ((dictMem_iff _ _).1 hb) this
      rw [ih (alistAppend gt t.name t) hk2]
      exact dictFind_alistAppend_other gt t.name t k (fun h2 => hne h2.symm)
    · rw [if_neg hm]
      exact ih gt hk

/-! ### Characterization of the assembled groups table -/

theorem groupsOf_keys (d : DigikeyDirectory) :
    dictKeys (groupsOf d) = dictKeys (step1Groups [] (childrenSorted d)) :=
  collisionGroups_keys d.tables (step1Groups [] (childrenSorted d))

theorem groupsOf_keys_nodup (d : DigikeyDirectory) : (dictKeys (groupsOf d)).Nodup := by
  rw [groupsOf_keys]
  exact step1Groups_keys_nodup (childrenSorted d) [] List.nodup_nil

theorem mem_dictKeys_groupsOf (d : DigikeyDirectory) (k : PyStr) :
    k ∈ dictKeys (groupsOf d) ↔ ∃ t ∈ childrenSorted d, groupKeyOf t = some k := by
  rw [groupsOf_keys, step1Groups_keys_mem]
  constructor
  · rintro (h | h)
    · cases h
    · exact h
  · exact Or.inr

theorem groupsOf_find_mem (d : DigikeyDirectory) (k : PyStr)
    (hm : dictMem k (step1Groups [] (childrenSorted d)) = true) :
    dictFind (groupsOf d) k =
      (childrenSorted d).filter (fun t => decide (groupKeyOf t = some k)) ++
        d.tables.filter (fun t => decide (t.name = k)) := by
  unfold groupsOf
  rw [collisionGroups_find_mem k d.tables (step1Groups [] (childrenSorted d)) hm,
     step1Groups_find]
  rfl

theorem groupsOf_find_not_mem (d : DigikeyDirectory) (k : PyStr)
    (hm : dictMem k (step1Groups [] (childrenSorted d)) = false) :
    dictFind (groupsOf d) k =
      (childrenSorted d).filter (fun t => decide (groupKeyOf t = some k)) := by
  unfold groupsOf
  rw [collisionGroups_find_not_mem k d.tables (step1Groups [] (childrenSorted d)) hm,
     step1Groups_find]
  rfl

theorem mem_groupsOf_find (d : DigikeyDirectory) (k : PyStr) (t : DigikeyTable)
    (ht : t ∈ dictFind (groupsOf d) k) :
    t ∈ d.tables ∧
      (groupKeyOf t = some k ∨ (t.name = k ∧ k ∈ dictKeys (groupsOf d))) := by
  by_cases hm : dictMem k (step1Groups [] (childrenSorted d)) = true
  · rw [groupsOf_find_mem d k hm] at ht
    rcases List.mem_append.1 ht with h | h
    · rcases List.mem_filter.1 h with ⟨hmem, hdec⟩
      rw [decide_eq_true_eq] at hdec
      exact ⟨(mem_pySorted tableNameLe d.tables t).1 hmem, Or.inl hdec⟩
    · rcases List.mem_filter.1 h with ⟨hmem, hdec⟩
      rw [decide_eq_true_eq] at hdec
      refine ⟨hmem, Or.inr ⟨hdec, ?_⟩⟩
      rw [groupsOf_keys]
      exact (dictMem_iff k _).1 hm
  · have hm2 : dictMem k (step1Groups [] (childrenSorted d)) = false := by
      rcases hb : dictMem k (step1Groups [] (childrenSorted d))
      · rfl
      · exact absurd hb hm
    rw [groupsOf_find_not_mem d k hm2] at ht
    rcases List.mem_filter.1 ht with ⟨hmem, hdec⟩
    rw [decide_eq_true_eq] at hdec
    exact ⟨(mem_pySorted tableNameLe d.tables t).1 hmem, Or.inl hdec⟩

theorem groupKey_some_infix (t : DigikeyTable) (k : PyStr)
    (h : groupKeyOf t = some k) : sepStr <:+: t.name := by
  unfold groupKeyOf at h
  rcases ho : splitFirstSep sepStr t.name with _ | lr
  · rw [ho] at h; simp at h
  · exact sep_infix_of_split t.name lr.1 lr.2 ho

theorem groupsOf_key_unique (d : DigikeyDirectory) (k k' : PyStr) (t : DigikeyTable)
    (h1 : t ∈ dictFind (groupsOf d) k) (h2 : t ∈ dictFind (groupsOf d) k') : k = k' := by
  rcases (mem_groupsOf_find d k t h1).2 with hg1 | ⟨hn1, hk1⟩
  · rcases (mem_groupsOf_find d k' t h2).2 with hg2 | ⟨hn2, hk2⟩
    · exact Option.some.inj (hg1.symm.trans hg2)
    · exfalso
      rcases (mem_dictKeys_groupsOf d k').1 hk2 with ⟨t2, -, hg2⟩
      refine groupKey_no_sep t2 k' hg2 ?_
      rw [← hn2]
      exact groupKey_some_infix t k hg1
  · rcases (mem_groupsOf_find d k' t h2).2 with hg2 | ⟨hn2, hk2⟩
    · exfalso
      rcases (mem_dictKeys_groupsOf d k).1 hk1 with ⟨t2, -, hg1b⟩
      refine groupKey_no_sep t2 k hg1b ?_
      rw [← hn1]
      exact groupKey_some_infix t k' hg2
    · rw [← hn1, ← hn2]

/-! ### Lemmas about removal and sub-directory creation -/

theorem foldl_erase_nested :
    ∀ (gs : GroupsTable) (cs : List DigikeyTable),
      gs.foldl (fun cs p => p.2.foldl (fun cs t => cs.erase t) cs) cs =
        (gs.flatMap (fun p => p.2)).foldl (fun cs t => cs.erase t) cs := by
  intro gs
  induction gs with
  | nil => intro cs; rfl
  | cons p rest ih =>
    intro cs
    rw [List.foldl_cons, List.flatMap_cons, List.foldl_append]
    exact ih (p.2.foldl (fun cs t => cs.erase t) cs)

theorem mem_foldl_erase {α : Type} [DecidableEq α] (x : α) :
    ∀ (rs cs : List α), cs.Nodup →
      (x ∈ rs.foldl (fun cs t => cs.erase t) cs ↔ x ∈ cs ∧ x ∉ rs) := by
  intro rs
  induction rs with
  | nil =>
    intro cs _
    simp
  | cons r rs ih =>
    intro cs hnd
    rw [List.foldl_cons]
    rw [ih (cs.erase r) (hnd.erase r)]
    rw [hnd.mem_erase_iff]
    constructor
    · rintro ⟨⟨hxr, hxc⟩, hxs⟩
      refine ⟨hxc, ?_⟩
      intro hin
      rcases List.mem_cons.1 hin with he | hin
      · exact hxr he
      · exact hxs hin
    · rintro ⟨hxc, hnin⟩
      refine ⟨⟨fun he => hnin (he ▸ List.mem_cons_self r rs), hxc⟩, ?_⟩
      intro hin
      exact hnin (List.mem_cons_of_mem r hin)

theorem remainingTables_mem (d : DigikeyDirectory) (hnd : d.tables.Nodup)
    (x : DigikeyTable) :
    x ∈ remainingTables d ↔ x ∈ d.tables ∧ ∀ p ∈ survivors d, x ∉ p.2 := by
  unfold remainingTables
  rw [foldl_erase_nested (survivors d) d.tables]
  rw [mem_foldl_erase x ((survivors d).flatMap (fun p => p.2)) d.tables hnd]
  constructor
  · rintro ⟨hx, hnin⟩
    refine ⟨hx, ?_⟩
    intro p hp hxp
    exact hnin (List.mem_flatMap.2 ⟨p, hp, hxp⟩)
  · rintro ⟨hx, hall⟩
    refine ⟨hx, ?_⟩
    intro hin
    rcases List.mem_flatMap.1 hin with ⟨p, hp, hxp⟩
    exact hall p hp hxp

theorem survivors_sub (d : DigikeyDirectory) (p : PyStr × List DigikeyTable)
    (hp : p ∈ survivors d) : p ∈ groupsOf d ∧ 2 ≤ p.2.length := by
  rcases List.mem_filter.1 hp with ⟨hmem, hdec⟩
  rw [decide_eq_true_eq] at hdec
  exact ⟨hmem, hdec⟩

theorem dictKeys_survivors_nodup (d : DigikeyDirectory) :
    (dictKeys (survivors d)).Nodup := by
  have hsub : (dictKeys (survivors d)).Sublist (dictKeys (groupsOf d)) := by
    unfold dictKeys
    exact List.Sublist.map (fun p => p.1) (List.filter_sublist (groupsOf d))
  exact hsub.nodup (groupsOf_keys_nodup d)

theorem survivors_find (d : DigikeyDirectory) (k : PyStr)
    (hk : k ∈ dictKeys (survivors d)) :
    dictFind (survivors d) k = dictFind (groupsOf d) k ∧
      2 ≤ (dictFind (groupsOf d) k).length := by
  rcases (mem_dictKeys_exists (survivors d) k).1 hk with ⟨l, hl⟩
  have hg := survivors_sub d (k, l) hl
  have he1 : dictFind (survivors d) k = l :=
    dictFind_of_mem_nodup k l (survivors d) (dictKeys_survivors_nodup d) hl
  have he2 : dictFind (groupsOf d) k = l :=
    dictFind_of_mem_nodup k l (groupsOf d) (groupsOf_keys_nodup d) hg.1
  rw [he1, he2]
  exact ⟨rfl, hg.2⟩

theorem mem_dictKeys_survivors (d : DigikeyDirectory) (k : PyStr) :
    k ∈ dictKeys (survivors d) ↔
      k ∈ dictKeys (groupsOf d) ∧ 2 ≤ (dictFind (groupsOf d) k).length := by
  constructor
  · intro hk
    rcases (mem_dictKeys_exists (survivors d) k).1 hk with ⟨l, hl⟩
    have hg := survivors_sub d (k, l) hl
    have he2 : dictFind (groupsOf d) k = l :=
      dictFind_of_mem_nodup k l (groupsOf d) (groupsOf_keys_nodup d) hg.1
    refine ⟨(mem_dictKeys_exists (groupsOf d) k).2 ⟨l, hg.1⟩, ?_⟩
    rw [he2]
    exact hg.2
  · rintro ⟨hk, hlen⟩
    rcases (mem_dictKeys_exists (groupsOf d) k).1 hk with ⟨l, hl⟩
    have he2 : dictFind (groupsOf d) k = l :=
      dictFind_of_mem_nodup k l (groupsOf d) (groupsOf_keys_nodup d) hl
    have hmem : (k, l) ∈ survivors d := by
      unfold survivors
      refine List.mem_filter.2 ⟨hl, ?_⟩
      rw [decide_eq_true_eq]
      rw [he2] at hlen
      exact hlen
    exact (mem_dictKeys_exists (survivors d) k).2 ⟨l, hmem⟩

theorem survivors_entry (d : DigikeyDirectory) (k : PyStr)
    (hk : k ∈ dictKeys (survivors d)) :
    (k, dictFind (survivors d) k) ∈ survivors d := by
  rcases (mem_dictKeys_exists (survivors d) k).1 hk with ⟨l, hl⟩
  have he1 : dictFind (survivors d) k = l :=
    dictFind_of_mem_nodup k l (survivors d) (dictKeys_survivors_nodup d) hl
  rw [he1]
  exact hl

theorem mem_newSubdirs (d : DigikeyDirectory) (sd : DigikeySubDirectory) :
    sd ∈ newSubdirs d ↔ ∃ k ∈ dictKeys (survivors d), sd = mkSubDirectory d k := by
  unfold newSubdirs
  constructor
  · intro h
    rcases List.mem_map.1 h with ⟨k, hk, he⟩
    exact ⟨k, (mem_pySorted pyStrLe (dictKeys (survivors d)) k).1 hk, he.symm⟩
  · rintro ⟨k, hk, rfl⟩
    exact List.mem_map_of_mem (mkSubDirectory d)
      ((mem_pySorted pyStrLe (dictKeys (survivors d)) k).2 hk)

theorem reorganize_ok_inv (d r : DigikeyDirectory)
    (h : d.reorganize = .ok r) :
    d.subdirs = [] ∧ r = ⟨d.name, d.id, d.url, remainingTables d, newSubdirs d⟩ := by
  unfold DigikeyDirectory.reorganize at h
  split at h
  · next hsub =>
    refine ⟨hsub, ?_⟩
    injection h with h2
    exact h2.symm
  · simp at h

theorem mem_find_groupsOf_tables (d : DigikeyDirectory) (k : PyStr) (t : DigikeyTable)
    (ht : t ∈ dictFind (groupsOf d) k) : t ∈ d.tables :=
  (mem_groupsOf_find d k t ht).1

theorem two_le_length_of_mem {α : Type} {a b : α} :
    ∀ {l : List α}, a ∈ l → b ∈ l → a ≠ b → 2 ≤ l.length := by
  intro l ha hb hne
  cases l with
  | nil => cases ha
  | cons x l2 =>
    cases l2 with
    | nil =>
      have ha2 : a = x := List.mem_singleton.1 ha
      have hb2 : b = x := List.mem_singleton.1 hb
      exact absurd (ha2.trans hb2.symm) hne
    | cons y l3 =>
      simp only [List.length_cons]
      omega

/-! ### Claim theorems for the reorganizer -/

/-- Claim C4 amended: every sub-directory created by reorganize carries the id
and url of the last table in the name-sorted child list (the stale loop
variables of the step 1 scan), and each of its re-created tables keeps its
original name with href cleared while taking base, id and url from that same
last child. -/
theorem claim4_amended (d r : DigikeyDirectory) (h : d.reorganize = .ok r)
    (sd : DigikeySubDirectory) (hsd : sd ∈ r.subdirs) :
    sd.id = (lastScanned d).id ∧ sd.url = (lastScanned d).url ∧
    ∀ t ∈ sd.tables, t.href = [] ∧ t.base = (lastScanned d).base ∧
      t.id = (lastScanned d).id ∧ t.url = (lastScanned d).url ∧
      ∃ u ∈ d.tables, u.name = t.name := by
  obtain ⟨hsub, hre⟩ := reorganize_ok_inv d r h
  subst hre
  rcases (mem_newSubdirs d sd).1 hsd with ⟨k, hk, rfl⟩
  refine ⟨rfl, rfl, ?_⟩
  intro t ht
  rcases List.mem_map.1 ht with ⟨u, hu, rfl⟩
  refine ⟨rfl, rfl, rfl, rfl, u, ?_, rfl⟩
  have hu2 : u ∈ dictFind (survivors d) k :=
    (mem_pySorted tableNameLe (dictFind (survivors d) k) u).1 hu
  have hu3 : u ∈ dictFind (groupsOf d) k := by
    rw [← (survivors_find d k hk).1]
    exact hu2
  exact mem_find_groupsOf_tables d k u hu3

/-- Witness for the amended claim C4 at the two-table directory c4dir. -/
theorem claim4_amended_witness :
    (mkSubDirectory c4dir (pstr "A")).id = (lastScanned c4dir).id ∧
    (mkSubDirectory c4dir (pstr "A")).url = (lastScanned c4dir).url ∧
    ∀ t ∈ (mkSubDirectory c4dir (pstr "A")).tables, t.href = [] ∧
      t.base = (lastScanned c4dir).base ∧ t.id = (lastScanned c4dir).id ∧
      t.url = (lastScanned c4dir).url ∧ ∃ u ∈ c4dir.tables, u.name = t.name :=
  claim4_amended c4dir c4res (by decide) (mkSubDirectory c4dir (pstr "A")) (by decide)

/-- Claim C8: a prefix group accumulated with fewer than two member tables is
discarded by reorganize: no sub-directory bears its key and each of its
tables stays among the direct table children; moreover a directory holding
exactly one divided table is returned entirely unchanged. -/
theorem claim8_small_groups_discarded :
    (∀ (d r : DigikeyDirectory) (k : PyStr), d.reorganize = .ok r → d.tables.Nodup →
       k ∈ dictKeys (groupsOf d) → (dictFind (groupsOf d) k).length < 2 →
       (∀ sd ∈ r.subdirs, sd.name ≠ k) ∧
       ∀ t ∈ dictFind (groupsOf d) k, t ∈ r.tables) ∧
    (∀ (nm : PyStr) (i : Int) (u : PyStr) (t : DigikeyTable) (l rr : PyStr),
       splitFirstSep sepStr t.name = some (l, rr) →
       DigikeyDirectory.reorganize ⟨nm, i, u, [t], []⟩ = .ok ⟨nm, i, u, [t], []⟩) := by
  constructor
  · intro d r k hok hnd hk hlen
    obtain ⟨hsub, hre⟩ := reorganize_ok_inv d r hok
    subst hre
    constructor
    · intro sd hsd hname
      rcases (mem_newSubdirs d sd).1 hsd with ⟨k2, hk2, rfl⟩
      have hname2 : k2 = k := hname
      have hk2b := ((mem_dictKeys_survivors d k2).1 hk2).2
      rw [hname2] at hk2b
      omega
    · intro t ht
      show t ∈ remainingTables d
      rw [remainingTables_mem d hnd t]
      refine ⟨mem_find_groupsOf_tables d k t ht, ?_⟩
      intro p hp hxp
      have hpg := survivors_sub d p hp
      have hfind : dictFind (groupsOf d) p.1 = p.2 :=
        dictFind_of_mem_nodup p.1 p.2 (groupsOf d) (groupsOf_keys_nodup d) hpg.1
      have ht2 : t ∈ dictFind (groupsOf d) p.1 := by
        rw [hfind]
        exact hxp
      have hkk : k = p.1 := groupsOf_key_unique d k p.1 t ht ht2
      rw [hkk, hfind] at hlen
      have := hpg.2
      omega
  · intro nm i u t l rr hs
    have hname : t.name = l ++ sepStr ++ rr := splitFirstSep_append sepStr t.name l rr hs
    have hk0 : groupKeyOf t = some (pyStrip l) := by
      unfold groupKeyOf
      rw [hs]
    have hlen : (pyStrip l).length < t.name.length := by
      have h1 := pyStrip_length_le l
      have h2 : t.name.length = l.length + sepStr.length + rr.length := by
        rw [hname]
        simp only [List.length_append]
      have h3 : sepStr.length = 3 := by decide
      omega
    have hne : ¬ (pyStrip l = t.name) := by
      intro he
      have := congrArg List.length he
      omega
    have hstep : step1Groups [] [t] = [(pyStrip l, [t])] := by
      rw [step1Groups_cons]
      simp only [hk0]
      rfl
    have hm : dictMem t.name [(pyStrip l, [t])] = false := by
      simp [dictMem, hne]
    have hgroups : groupsOf ⟨nm, i, u, [t], []⟩ = [(pyStrip l, [t])] := by
      unfold groupsOf
      rw [show childrenSorted ⟨nm, i, u, [t], []⟩ = [t] from rfl]
      rw [hstep, collisionGroups_cons, hm]
      rw [if_neg Bool.false_ne_true]
      rfl
    have hsurv : survivors ⟨nm, i, u, [t], []⟩ = [] := by
      unfold survivors
      rw [hgroups]
      rfl
    have hrem : remainingTables ⟨nm, i, u, [t], []⟩ = [t] := by
      unfold remainingTables
      rw [hsurv]
      rfl
    have hnew : newSubdirs ⟨nm, i, u, [t], []⟩ = [] := by
      unfold newSubdirs
      rw [hsurv]
      rfl
    show DigikeyDirectory.reorganize ⟨nm, i, u, [t], []⟩ = .ok ⟨nm, i, u, [t], []⟩
    unfold DigikeyDirectory.reorganize
    rw [if_pos rfl, hrem, hnew]

/-- Witness for claim C8: the single-table directory c8dir is unchanged, its
lone group key Connectors names no sub-directory, and its table stays put. -/
theorem claim8_witness :
    c8dir.reorganize = .ok c8dir ∧
    ((∀ sd ∈ c8dir.subdirs, sd.name ≠ pstr "Connectors") ∧
      ∀ t ∈ dictFind (groupsOf c8dir) (pstr "Connectors"), t ∈ c8dir.tables) := by
  have h2 := claim8_small_groups_discarded.2 (pstr "D8") 3 (pstr "du") c8t
    (pstr "Connectors") (pstr "Accessories") (by decide)
  refine ⟨h2, ?_⟩
  exact claim8_small_groups_discarded.1 c8dir c8dir (pstr "Connectors") h2 (by decide)
    (by decide) (by decide)

/-- Claim C7 counterexample: with X = A - B, the directory c7dir has a table
named exactly A - B and two tables named A - B - C and A - B - D (of the form
X - suffix), yet reorganization groups all three under a sub-directory named
A, because the split always happens at the first separator; no sub-directory
named A - B exists and the undivided table does not stay either. -/
theorem claim7_counterexample :
    c7g0.name = pstr "A - B" ∧
    c7g1.name = pstr "A - B" ++ sepStr ++ pstr "C" ∧
    c7g2.name = pstr "A - B" ++ sepStr ++ pstr "D" ∧
    c7dir.tables = [c7g0, c7g1, c7g2] ∧
    c7dir.reorganize = .ok ⟨pstr "P", 1, pstr "pu", [],
      [⟨pstr "A", 3, pstr "gu2",
        [⟨pstr "A - B", pstr "g2", 3, [], pstr "gu2"⟩,
         ⟨pstr "A - B - C", pstr "g2", 3, [], pstr "gu2"⟩,
         ⟨pstr "A - B - D", pstr "g2", 3, [], pstr "gu2"⟩]⟩]⟩ ∧
    (newSubdirs c7dir).map (fun sd => sd.name) = [pstr "A"] ∧
    pstr "A" ≠ pstr "A - B" := by
  decide

/-- Claim C7 amended: when a directory has a table named exactly X together
with at least two distinct tables whose names split at their first separator
into the group key X, reorganization creates exactly one sub-directory named
X whose re-created tables cover every such table (the undivided one
included), and none of those tables remain direct children.  The restriction
that X itself is a separator-free group key is forced: a name containing the
separator is never a group key. -/
theorem claim7_amended (d r : DigikeyDirectory) (X : PyStr)
    (hok : d.reorganize = .ok r) (hnd : d.tables.Nodup)
    (t0 t1 t2 : DigikeyTable)
    (ht0 : t0 ∈ d.tables) (ht0n : t0.name = X)
    (ht1 : t1 ∈ d.tables) (ht2 : t2 ∈ d.tables) (hne : t1 ≠ t2)
    (hk1 : groupKeyOf t1 = some X) (hk2 : groupKeyOf t2 = some X) :
    ∃ sd, sd ∈ r.subdirs ∧ sd.name = X ∧
      (∀ sd2 ∈ r.subdirs, sd2.name = X → sd2 = sd) ∧
      (∀ t ∈ d.tables, t.name = X ∨ groupKeyOf t = some X →
        t.name ∈ sd.tables.map (fun u2 => u2.name)) ∧
      (∀ t ∈ r.tables, ¬ (t.name = X ∨ groupKeyOf t = some X)) := by
  obtain ⟨hsub, hre⟩ := reorganize_ok_inv d r hok
  subst hre
  have ht1s : t1 ∈ childrenSorted d := (mem_pySorted tableNameLe d.tables t1).2 ht1
  have ht2s : t2 ∈ childrenSorted d := (mem_pySorted tableNameLe d.tables t2).2 ht2
  have hkX : X ∈ dictKeys (groupsOf d) := (mem_dictKeys_groupsOf d X).2 ⟨t1, ht1s, hk1⟩
  have hmX : dictMem X (step1Groups [] (childrenSorted d)) = true := by
    rw [dictMem_iff, ← groupsOf_keys]
    exact hkX
  have hfind := groupsOf_find_mem d X hmX
  have hfam_find : ∀ t, t ∈ d.tables → (t.name = X ∨ groupKeyOf t = some X) →
      t ∈ dictFind (groupsOf d) X := by
    intro t ht hfam
    rcases hfam with hn | hg
    · rw [hfind]
      refine List.mem_append.2 (Or.inr (List.mem_filter.2 ⟨ht, ?_⟩))
      rw [decide_eq_true_eq]
      exact hn
    · rw [hfind]
      refine List.mem_append.2 (Or.inl (List.mem_filter.2
        ⟨(mem_pySorted tableNameLe d.tables t).2 ht, ?_⟩))
      rw [decide_eq_true_eq]
      exact hg
  have hf1 : t1 ∈ dictFind (groupsOf d) X := hfam_find t1 ht1 (Or.inr hk1)
  have hf2 : t2 ∈ dictFind (groupsOf d) X := hfam_find t2 ht2 (Or.inr hk2)
  have hlen : 2 ≤ (dictFind (groupsOf d) X).length := two_le_length_of_mem hf1 hf2 hne
  have hkS : X ∈ dictKeys (survivors d) := (mem_dictKeys_survivors d X).2 ⟨hkX, hlen⟩
  refine ⟨mkSubDirectory d X, (mem_newSubdirs d (mkSubDirectory d X)).2 ⟨X, hkS, rfl⟩,
    rfl, ?_, ?_, ?_⟩
  · intro sd2 hsd2 hname2
    rcases (mem_newSubdirs d sd2).1 hsd2 with ⟨k2, hk2', rfl⟩
    have he : k2 = X := hname2
    rw [he]
  · intro t ht hfam
    have htS : t ∈ dictFind (survivors d) X := by
      rw [(survivors_find d X hkS).1]
      exact hfam_find t ht hfam
    refine List.mem_map.2 ⟨recreateTable d t, ?_, rfl⟩
    exact List.mem_map_of_mem (recreateTable d)
      ((mem_pySorted tableNameLe (dictFind (survivors d) X) t).2 htS)
  · intro t ht hfam
    have ht' : t ∈ remainingTables d := ht
    rw [remainingTables_mem d hnd t] at ht'
    have htX : t ∈ dictFind (groupsOf d) X := hfam_find t ht'.1 hfam
    refine ht'.2 (X, dictFind (survivors d) X) (survivors_entry d X hkS) ?_
    show t ∈ dictFind (survivors d) X
    rw [(survivors_find d X hkS).1]
    exact htX

/-- Witness for the amended claim C7 at the collision-case directory. -/
theorem claim7_amended_witness :
    ∃ sd, sd ∈ fibRes.subdirs ∧ sd.name = pstr "Fiber Optic Connectors" ∧
      (∀ sd2 ∈ fibRes.subdirs, sd2.name = pstr "Fiber Optic Connectors" → sd2 = sd) ∧
      (∀ t ∈ fibDir.tables, t.name = pstr "Fiber Optic Connectors" ∨
        groupKeyOf t = some (pstr "Fiber Optic Connectors") →
        t.name ∈ sd.tables.map (fun u2 => u2.name)) ∧
      (∀ t ∈ fibRes.tables, ¬ (t.name = pstr "Fiber Optic Connectors" ∨
        groupKeyOf t = some (pstr "Fiber Optic Connectors"))) :=
  claim7_amended fibDir fibRes (pstr "Fiber Optic Connectors") (by decide) (by decide)
    fib0 fib1 fib2 (by decide) (by decide) (by decide) (by decide) (by decide)
    (by decide) (by decide)
